import Mathlib

set_option allowUnsafeReducibility true
attribute [local semireducible] Rat.add Rat.mul Rat.sub

/-!
Verification of the generic weighted-graph core of
`polygon_coverage_planning` (`GraphBase` in
`src/include/mav_coverage_graph_solvers/impl/graph_base_impl.h`).

Shallow embedding conventions:
* `double` edge costs are modelled as `ℚ`.
* `std::map` / the per-node adjacency rows are modelled as association
  lists with unique keys; `std::map::insert` (which does NOT overwrite an
  existing key) is `insertIfAbsent`, while `operator[]` assignment (which
  does overwrite) is `rowSet`.
* `std::set<size_t>` open sets are modelled as strictly sorted lists so
  iteration order (ascending) matches; `std::min_element` keeps the first
  minimum, which `minElem` mirrors.
* `std::numeric_limits<double>::max()`, used as "infinity" in the cost
  maps, is modelled as `none : Option ℚ` (`some c` = finite cost `c`).
* The unbounded `while` loops are given fuel `graph.length + 1`
  (Dijkstra / A* close one new node per iteration) resp. chain length
  (solution reconstruction); fuel sufficiency is proved from the loop
  invariants.
* The virtual `addEdges()` hook called by `addNode` is modelled by its
  seam contract: a list of `addEdge` calls to perform plus the boolean it
  returns.  The virtual `calculateHeuristic` hook is modelled as the pair
  of its boolean result and the heuristic map it fills in.
-/

namespace MavCoveragePlanning

/-- Association-list lookup, mirroring `std::map::at` / `count`. -/
def lookupKey {κ β : Type _} [DecidableEq κ] : List (κ × β) → κ → Option β
  | [], _ => none
  | (k, v) :: t, a => if k = a then some v else lookupKey t a

/-- `map[k] = v`, the overwriting assignment of `std::map::operator[]`. -/
def rowSet {κ β : Type _} [DecidableEq κ] : List (κ × β) → κ → β → List (κ × β)
  | [], k, v => [(k, v)]
  | (a, b) :: t, k, v => if a = k then (a, v) :: t else (a, b) :: rowSet t k v

/-- `std::map::insert`, which keeps an existing entry for the key. -/
def insertIfAbsent {κ β : Type _} [DecidableEq κ] (m : List (κ × β)) (k : κ) (v : β) :
    List (κ × β) :=
  if (lookupKey m k).isSome then m else m ++ [(k, v)]

/-- `std::map::erase(find(k))`: removes the (unique) entry for `k`. -/
def eraseKey {κ β : Type _} [DecidableEq κ] : List (κ × β) → κ → List (κ × β)
  | [], _ => []
  | (a, b) :: t, k => if a = k then t else (a, b) :: eraseKey t k

/-- Ascending insertion into a strictly sorted list (`std::set::insert`). -/
def insertSorted (a : Nat) : List Nat → List Nat
  | [] => [a]
  | b :: t => if a < b then a :: b :: t else if a = b then b :: t else b :: insertSorted a t

/-- `cost[i] < cost[j]` where `none` models the `DBL_MAX` sentinel. -/
def qlt : Option ℚ → Option ℚ → Bool
  | some a, some b => decide (a < b)
  | some _, none => true
  | none, _ => false

/-- `cost[current] + w`: finite cost plus an edge weight. -/
def qadd : Option ℚ → ℚ → Option ℚ
  | some a, w => some (a + w)
  | none, _ => none

/-- `std::min_element` over `best :: rest` with comparator `qlt ∘ cost`:
keeps the first element attaining the minimum. -/
def minElem (cost : Nat → Option ℚ) : Nat → List Nat → Nat
  | best, [] => best
  | best, x :: t => if qlt (cost x) (cost best) then minElem cost x t else minElem cost best t

/-- Pointwise function update (for cost / predecessor maps). -/
def updFn {β : Type _} (f : Nat → β) (k : Nat) (v : β) : Nat → β :=
  fun n => if n = k then v else f n

/-- One adjacency row: neighbor index ↦ edge cost (`std::map<size_t, double>`). -/
abbrev Row := List (Nat × ℚ)

/-- The adjacency structure `graph_` (`std::vector<std::map<size_t, double>>`). -/
abbrev Graph := List Row

/-- `std::numeric_limits<size_t>::max()`, the unset-marker sentinel. -/
def sizeTMax : Nat := 2 ^ 64 - 1

/-- `std::numeric_limits<int>::max()`, the no-edge sentinel of the
adjacency-matrix export. -/
def intMax : Int := 2 ^ 31 - 1

/-- The state of a `GraphBase<NodeProperty, EdgeProperty>` instance. -/
structure GraphState (NP EP : Type _) where
  graph : Graph
  node_properties : List (Nat × NP)
  edge_properties : List ((Nat × Nat) × EP)
  start_idx : Nat
  goal_idx : Nat
  is_created : Bool

/-- `GraphBase::nodeExists`. -/
def nodeExists {NP EP : Type _} (s : GraphState NP EP) (node_id : Nat) : Bool :=
  decide (node_id < s.graph.length)

/-- `GraphBase::nodePropertyExists`. -/
def nodePropertyExists {NP EP : Type _} (s : GraphState NP EP) (node_id : Nat) : Bool :=
  (lookupKey s.node_properties node_id).isSome

/-- `GraphBase::edgeExists`. -/
def edgeExists {NP EP : Type _} (s : GraphState NP EP) (e : Nat × Nat) : Bool :=
  nodeExists s e.1 && (lookupKey (s.graph.getD e.1 []) e.2).isSome

/-- `GraphBase::edgePropertyExists`. -/
def edgePropertyExists {NP EP : Type _} (s : GraphState NP EP) (e : Nat × Nat) : Bool :=
  (lookupKey s.edge_properties e).isSome

/-- `GraphBase::addEdge`: succeeds iff `cost ≥ 0` and the source node
exists; on success assigns the adjacency cost via `operator[]` and
`insert`s the edge property. Returns (new state, bool result). -/
def addEdge {NP EP : Type _} (s : GraphState NP EP) (edge_id : Nat × Nat)
    (edge_property : EP) (cost : ℚ) : GraphState NP EP × Bool :=
  if 0 ≤ cost ∧ edge_id.1 < s.graph.length then
    ({ s with
        graph := s.graph.set edge_id.1 (rowSet (s.graph.getD edge_id.1 []) edge_id.2 cost),
        edge_properties := insertIfAbsent s.edge_properties edge_id edge_property }, true)
  else (s, false)

/-- The behaviour of one `addEdges()` hook invocation at the seam
contract: the `addEdge` calls it performs, then the boolean it returns. -/
def HookBehavior (EP : Type _) : Type _ := List ((Nat × Nat) × EP × ℚ) × Bool

/-- Run the hook's sequence of `addEdge` calls. -/
def runHook {NP EP : Type _} (s : GraphState NP EP) :
    List ((Nat × Nat) × EP × ℚ) → GraphState NP EP
  | [] => s
  | (e, p, c) :: t => runHook (addEdge s e p c).1 t

/-- `GraphBase::addNode`: push an empty row, insert the property at the
new index, run the `addEdges()` hook; on hook failure pop the row and
erase the property. -/
def addNode {NP EP : Type _} (s : GraphState NP EP) (node_property : NP)
    (hook : HookBehavior EP) : GraphState NP EP × Bool :=
  let s1 : GraphState NP EP := { s with graph := s.graph ++ [[]] }
  let idx := s1.graph.length - 1
  let s2 : GraphState NP EP :=
    { s1 with node_properties := insertIfAbsent s1.node_properties idx node_property }
  let s3 := runHook s2 hook.1
  if hook.2 then (s3, true)
  else
    ({ s3 with
        graph := s3.graph.dropLast,
        node_properties := eraseKey s3.node_properties idx }, false)

/-- `GraphBase::addStartNode`: records the index `addNode` is about to
assign as the start marker, then delegates. -/
def addStartNode {NP EP : Type _} (s : GraphState NP EP) (node_property : NP)
    (hook : HookBehavior EP) : GraphState NP EP × Bool :=
  addNode { s with start_idx := s.graph.length } node_property hook

/-- `GraphBase::addGoalNode`. -/
def addGoalNode {NP EP : Type _} (s : GraphState NP EP) (node_property : NP)
    (hook : HookBehavior EP) : GraphState NP EP × Bool :=
  addNode { s with goal_idx := s.graph.length } node_property hook

/-- `GraphBase::clear`. -/
def clear {NP EP : Type _} (s : GraphState NP EP) : GraphState NP EP :=
  { s with
      graph := [],
      node_properties := [],
      edge_properties := [],
      start_idx := sizeTMax,
      goal_idx := sizeTMax,
      is_created := false }

/-- `GraphBase::clearEdges`: clears the edge-property table and empties
every adjacency row (node rows themselves stay). -/
def clearEdges {NP EP : Type _} (s : GraphState NP EP) : GraphState NP EP :=
  { s with
      edge_properties := [],
      graph := s.graph.map (fun _ => []) }

/-- `GraphBase::getEdgeCost`: yields `(cost, true)` when the edge exists
and `(-1, false)` otherwise. -/
def getEdgeCost {NP EP : Type _} (s : GraphState NP EP) (e : Nat × Nat) : ℚ × Bool :=
  if edgeExists s e then ((lookupKey (s.graph.getD e.1 []) e.2).getD 0, true)
  else (-1, false)

/-- `GraphBase::getNodeProperty` (`none` models the `nullptr` return). -/
def getNodeProperty {NP EP : Type _} (s : GraphState NP EP) (node_id : Nat) : Option NP :=
  if nodePropertyExists s node_id then lookupKey s.node_properties node_id else none

/-- `GraphBase::getEdgeProperty` (`none` models the `nullptr` return). -/
def getEdgeProperty {NP EP : Type _} (s : GraphState NP EP) (e : Nat × Nat) : Option EP :=
  if edgePropertyExists s e then lookupKey s.edge_properties e else none

/-- `doubleToMilliInt` (declared in `mav_coverage_planning/common.h`,
which is not part of the sources).
Modelled from the spec: "its cost is converted to an integer by
multiplying by 1000 and rounding" — milli-unit quantization. -/
def doubleToMilliInt (c : ℚ) : Int := round (c * 1000)

/-- `GraphBase::getAdjacencyMatrix`: dense `N×N` matrix, a quantized cost
where an edge exists and `intMax` otherwise. -/
def getAdjacencyMatrix {NP EP : Type _} (s : GraphState NP EP) : List (List Int) :=
  (List.range s.graph.length).map fun i =>
    (List.range s.graph.length).map fun j =>
      if edgeExists s (i, j) && (getEdgeCost s (i, j)).2 then
        doubleToMilliInt (getEdgeCost s (i, j)).1
      else intMax

/-- `GraphBase::reconstructSolution`: walk `came_from` back from
`current`, collecting nodes (the source builds the reversed list and
then reverses it; this definition produces the final order directly).
`fuel` bounds the walk; the solvers pass `graph.length + 1`, shown
sufficient from the loop invariants. -/
def reconstructSolution (came_from : Nat → Option Nat) : Nat → Nat → List Nat
  | current, 0 => [current]
  | current, fuel + 1 =>
    match came_from current with
    | none => [current]
    | some prev => reconstructSolution came_from prev fuel ++ [current]

/-- The working state of `GraphBase::solveDijkstra`'s main loop. -/
structure DState where
  openSet : List Nat
  closed : List Nat
  cameFrom : Nat → Option Nat
  cost : Nat → Option ℚ

/-- One neighbor step of the Dijkstra relaxation loop body: skip closed
neighbors, otherwise add to the open set and relax
(`tentative_cost >= cost[n.first]` skips; a strict improvement updates
predecessor and cost). -/
def relaxOne (cur : Nat) (st : DState) (e : Nat × ℚ) : DState :=
  if e.1 ∈ st.closed then st
  else if qlt (qadd (st.cost cur) e.2) (st.cost e.1) then
    { st with
        openSet := insertSorted e.1 st.openSet,
        cameFrom := updFn st.cameFrom e.1 (some cur),
        cost := updFn st.cost e.1 (qadd (st.cost cur) e.2) }
  else { st with openSet := insertSorted e.1 st.openSet }

/-- The full neighbor loop over `graph_[current]`. -/
def relaxAll (cur : Nat) (st : DState) (row : Row) : DState :=
  row.foldl (relaxOne cur) st

/-- `solveDijkstra`'s `while (!open_set.empty())` loop, with fuel. -/
def dijkstraLoop (g : Graph) (goal : Nat) : Nat → DState → Bool × List Nat
  | 0, _ => (false, [])
  | fuel + 1, st =>
    match st.openSet with
    | [] => (false, [])
    | x :: xs =>
      let current := minElem st.cost x xs
      if current = goal then
        (true, reconstructSolution st.cameFrom current (g.length + 1))
      else
        let st1 : DState :=
          { st with openSet := st.openSet.erase current, closed := current :: st.closed }
        dijkstraLoop g goal fuel (relaxAll current st1 (g.getD current []))

/-- `GraphBase::solveDijkstra(start, goal, solution)`.  The final
component is the contents of the caller's solution container when the
call returns (it is cleared on entry). -/
def solveDijkstra {NP EP : Type _} (s : GraphState NP EP) (start goal : Nat)
    (_solution : List Nat) : Bool × List Nat :=
  if start < s.graph.length ∧ goal < s.graph.length then
    dijkstraLoop s.graph goal (s.graph.length + 1)
      { openSet := [start],
        closed := [],
        cameFrom := fun _ => none,
        cost := fun n => if n = start then some 0 else none }
  else (false, [])

/-- The zero-argument `solveDijkstra` overload (uses the stored markers). -/
def solveDijkstraAuto {NP EP : Type _} (s : GraphState NP EP) (solution : List Nat) :
    Bool × List Nat :=
  solveDijkstra s s.start_idx s.goal_idx solution

/-- The behaviour of a `calculateHeuristic` hook invocation: its boolean
result and the heuristic map (node ↦ estimate) it filled in. -/
def HeuristicBehavior : Type _ := Bool × (Nat → Option ℚ)

/-- The working state of `GraphBase::solveAStar`'s main loop
(`costH` is `cost_with_heuristic`). -/
structure AState where
  openSet : List Nat
  closed : List Nat
  cameFrom : Nat → Option Nat
  cost : Nat → Option ℚ
  costH : Nat → Option ℚ

/-- One neighbor step of the A* loop body.  `none` models the
`return false` taken when the relaxed neighbor has no heuristic entry. -/
def relaxOneA (h : Nat → Option ℚ) (cur : Nat) (st : AState) (e : Nat × ℚ) :
    Option AState :=
  if e.1 ∈ st.closed then some st
  else if qlt (qadd (st.cost cur) e.2) (st.cost e.1) then
    match h e.1 with
    | none => none
    | some he =>
      some { st with
               openSet := insertSorted e.1 st.openSet,
               cameFrom := updFn st.cameFrom e.1 (some cur),
               cost := updFn st.cost e.1 (qadd (st.cost cur) e.2),
               costH := updFn st.costH e.1 (qadd (qadd (st.cost cur) e.2) he) }
  else some { st with openSet := insertSorted e.1 st.openSet }

/-- The full A* neighbor loop over `graph_[current]`. -/
def relaxAllA (h : Nat → Option ℚ) (cur : Nat) : AState → Row → Option AState
  | st, [] => some st
  | st, e :: t =>
    match relaxOneA h cur st e with
    | none => none
    | some st1 => relaxAllA h cur st1 t

/-- `solveAStar`'s main loop: `some sol` on success, `none` on any
failure (empty open set, missing heuristic entry, fuel). -/
def aStarLoop (g : Graph) (h : Nat → Option ℚ) (goal : Nat) :
    Nat → AState → Option (List Nat)
  | 0, _ => none
  | fuel + 1, st =>
    match st.openSet with
    | [] => none
    | x :: xs =>
      let current := minElem st.costH x xs
      if current = goal then
        some (reconstructSolution st.cameFrom current (g.length + 1))
      else
        let st1 : AState :=
          { st with openSet := st.openSet.erase current, closed := current :: st.closed }
        match relaxAllA h current st1 (g.getD current []) with
        | none => none
        | some st2 => aStarLoop g h goal fuel st2

/-- `GraphBase::solveAStar(start, goal, solution)`, parameterized by the
`calculateHeuristic` hook behaviour.  On failure the caller's solution
container is untouched (the source never clears it). -/
def solveAStar {NP EP : Type _} (s : GraphState NP EP) (hres : HeuristicBehavior)
    (start goal : Nat) (solution : List Nat) : Bool × List Nat :=
  if start < s.graph.length ∧ goal < s.graph.length then
    if hres.1 then
      match hres.2 start with
      | none => (false, solution)
      | some hstart =>
        match aStarLoop s.graph hres.2 goal (s.graph.length + 1)
            { openSet := [start],
              closed := [],
              cameFrom := fun _ => none,
              cost := fun n => if n = start then some 0 else none,
              costH := fun n => if n = start then some hstart else none } with
        | none => (false, solution)
        | some sol => (true, sol)
    else (false, solution)
  else (false, solution)

/-- The zero-argument `solveAStar` overload (uses the stored markers). -/
def solveAStarAuto {NP EP : Type _} (s : GraphState NP EP) (hres : HeuristicBehavior)
    (solution : List Nat) : Bool × List Nat :=
  solveAStar s hres s.start_idx s.goal_idx solution

/-- Directed paths of the adjacency structure, built from the start node
by appending edges; `GPath g s t p c` says `p` begins at `s`, ends at
`t`, follows existing adjacency entries, and has cumulative edge cost
`c`. -/
inductive GPath (g : Graph) (s : Nat) : Nat → List Nat → ℚ → Prop
  | single : GPath g s s [s] 0
  | snoc {u v : Nat} {p : List Nat} {c w : ℚ} :
      GPath g s u p c → lookupKey (g.getD u []) v = some w →
      GPath g s v (p ++ [v]) (c + w)

/-- The chain a predecessor map encodes, ending at `n`: `Chain cf n p`
says following `cf` back from `n` terminates and spells the list `p`. -/
inductive Chain (cf : Nat → Option Nat) : Nat → List Nat → Prop
  | nil {n : Nat} : cf n = none → Chain cf n [n]
  | cons {n m : Nat} {p : List Nat} :
      cf n = some m → Chain cf m p → Chain cf n (p ++ [n])

/-- Well-formedness of the adjacency structure: every stored neighbor
index references an existing node (the spec makes dangling destinations
the caller's responsibility to avoid) and, as `std::map` rows guarantee,
row keys are unique. -/
abbrev WellFormed (g : Graph) : Prop :=
  ∀ row ∈ g, (∀ e ∈ row, e.1 < g.length) ∧ (row.map Prod.fst).Nodup

/-- All stored edge costs are non-negative. -/
abbrev NonNegGraph (g : Graph) : Prop :=
  ∀ row ∈ g, ∀ e ∈ row, 0 ≤ e.2

/-- Interpret a cost-map value (`none` = the `DBL_MAX` sentinel) in
`WithTop ℚ`. -/
def val : Option ℚ → WithTop ℚ
  | none => ⊤
  | some a => (a : WithTop ℚ)

/-- The core loop invariant of the embedded Dijkstra search (everything
except relaxation completeness of closed nodes). -/
structure DCore (g : Graph) (start : Nat) (st : DState) : Prop where
  openSorted : st.openSet.Sorted (· < ·)
  openLt : ∀ x ∈ st.openSet, x < g.length
  closedLt : ∀ x ∈ st.closed, x < g.length
  openClosed : ∀ x ∈ st.openSet, x ∉ st.closed
  closedNodup : st.closed.Nodup
  openFinite : ∀ x ∈ st.openSet, st.cost x ≠ none
  closedFinite : ∀ x ∈ st.closed, st.cost x ≠ none
  costStart : st.cost start = some 0
  startMem : start ∈ st.openSet ∨ start ∈ st.closed
  real : ∀ n c, st.cost n = some c → ∃ p, Chain st.cameFrom n p ∧
    GPath g start n p c ∧ p.Nodup ∧ (∀ x ∈ p.dropLast, x ∈ st.closed) ∧
    (∀ x ∈ p, x < g.length)
  cameClosed : ∀ n m, st.cameFrom n = some m → m ∈ st.closed
  closedOpt : ∀ u ∈ st.closed, ∀ p c, GPath g start u p c →
    val (st.cost u) ≤ (c : WithTop ℚ)

/-- Node `u` has had all its outgoing edges relaxed: every neighbor cost
is bounded by `cost u + w` and every neighbor has been seen. -/
def RelaxedAt (g : Graph) (st : DState) (u : Nat) : Prop :=
  ∀ e ∈ g.getD u [], val (st.cost e.1) ≤ val (st.cost u) + (e.2 : WithTop ℚ) ∧
    (e.1 ∈ st.openSet ∨ e.1 ∈ st.closed)

/-- The full Dijkstra loop invariant. -/
def DInv (g : Graph) (start : Nat) (st : DState) : Prop :=
  DCore g start st ∧ ∀ u ∈ st.closed, RelaxedAt g st u

/-- The graph reweighted by a heuristic: `w'(u,v) = w(u,v) + h(v) - h(u)`.
With a consistent heuristic all reweighted costs are non-negative, and A*
on `g` behaves exactly like Dijkstra on `reweight g hf`. -/
def reweight (g : Graph) (hf : Nat → ℚ) : Graph :=
  (List.range g.length).map fun u =>
    (g.getD u []).map fun e => (e.1, e.2 + hf e.1 - hf u)

/-- View a Dijkstra loop result as the A* loop's optional result. -/
def toOpt (r : Bool × List Nat) : Option (List Nat) :=
  if r.1 then some r.2 else none

/-- The bisimulation relation between an A* state on `g` and a Dijkstra
state on `reweight g hf` (`C` is the heuristic value of the start node). -/
def RelAD (hf : Nat → ℚ) (C : ℚ) (ast : AState) (dst : DState) : Prop :=
  ast.openSet = dst.openSet ∧ ast.closed = dst.closed ∧
  ast.cameFrom = dst.cameFrom ∧
  (∀ n, ast.cost n = (dst.cost n).map (fun c => c + (C - hf n))) ∧
  (∀ n, ast.costH n = (dst.cost n).map (fun c => c + C))

/-! ### Association-list and getD lemmas -/

theorem lookupKey_eq_none {κ β : Type _} [DecidableEq κ] {m : List (κ × β)} {k : κ}
    (h : ∀ kv ∈ m, kv.1 ≠ k) : lookupKey m k = none := by
  induction m with
  | nil => rfl
  | cons a t ih =>
    simp only [lookupKey]
    rw [if_neg (h a (by simp))]
    exact ih fun kv hkv => h kv (by simp [hkv])

theorem lookupKey_mem {κ β : Type _} [DecidableEq κ] {m : List (κ × β)} {k : κ} {v : β}
    (h : lookupKey m k = some v) : (k, v) ∈ m := by
  induction m with
  | nil => simp [lookupKey] at h
  | cons a t ih =>
    simp only [lookupKey] at h
    by_cases hk : a.1 = k
    · rw [if_pos hk] at h
      have hv := Option.some.inj h
      exact List.mem_cons.mpr (Or.inl (Prod.ext hk hv).symm)
    · rw [if_neg hk] at h
      exact List.mem_cons_of_mem _ (ih h)

theorem lookupKey_of_mem_nodup {κ β : Type _} [DecidableEq κ] {m : List (κ × β)}
    {e : κ × β} (hnd : (m.map Prod.fst).Nodup) (h : e ∈ m) :
    lookupKey m e.1 = some e.2 := by
  induction m with
  | nil => simp at h
  | cons a t ih =>
    simp only [List.map_cons, List.nodup_cons] at hnd
    rcases List.mem_cons.mp h with h | h
    · subst h
      simp [lookupKey]
    · have hne : a.1 ≠ e.1 := by
        intro hc
        exact hnd.1 (hc ▸ List.mem_map_of_mem Prod.fst h)
      simp only [lookupKey, if_neg hne]
      exact ih hnd.2 h

theorem eraseKey_append_of_not_mem {κ β : Type _} [DecidableEq κ] {m : List (κ × β)}
    {k : κ} {v : β} (h : ∀ kv ∈ m, kv.1 ≠ k) : eraseKey (m ++ [(k, v)]) k = m := by
  induction m with
  | nil => simp [eraseKey]
  | cons a t ih =>
    simp only [List.cons_append, eraseKey]
    rw [if_neg (h a (by simp))]
    rw [show t.append [(k, v)] = t ++ [(k, v)] from rfl,
      ih fun kv hkv => h kv (by simp [hkv])]

theorem rowSet_mem {κ β : Type _} [DecidableEq κ] {row : List (κ × β)} {k : κ} {v : β}
    {e : κ × β} (h : e ∈ rowSet row k v) : e ∈ row ∨ e = (k, v) := by
  induction row with
  | nil => simpa [rowSet] using h
  | cons a t ih =>
    simp only [rowSet] at h
    by_cases hk : a.1 = k
    · rw [if_pos hk] at h
      rcases List.mem_cons.mp h with h | h
      · right
        rw [h, ← hk]
      · left
        exact List.mem_cons_of_mem _ h
    · rw [if_neg hk] at h
      rcases List.mem_cons.mp h with h | h
      · left
        simp [h]
      · rcases ih h with h | h
        · left
          exact List.mem_cons_of_mem _ h
        · right
          exact h

theorem lookupKey_rowSet_self {κ β : Type _} [DecidableEq κ] (row : List (κ × β))
    (k : κ) (v : β) : lookupKey (rowSet row k v) k = some v := by
  induction row with
  | nil => simp [rowSet, lookupKey]
  | cons a t ih =>
    simp only [rowSet]
    by_cases hk : a.1 = k
    · rw [if_pos hk]
      simp [lookupKey, hk]
    · rw [if_neg hk]
      simp only [lookupKey, if_neg hk]
      exact ih

theorem getD_map_const_nil (l : Graph) (i : Nat) :
    (l.map fun _ => ([] : Row)).getD i [] = [] := by
  induction l generalizing i with
  | nil => simp
  | cons a t ih =>
    cases i with
    | zero => simp
    | succ n => simp [ih n]

theorem getD_set_self (l : Graph) (i : Nat) (r : Row) (h : i < l.length) :
    (l.set i r).getD i [] = r := by
  induction l generalizing i with
  | nil => simp at h
  | cons a t ih =>
    cases i with
    | zero => simp
    | succ n => simpa using ih n (by simpa using h)

theorem getD_range_map {β : Type _} (n : Nat) (f : Nat → β) (d : β) (i : Nat)
    (h : i < n) : (((List.range n).map f).getD i d) = f i := by
  have h1 : ((List.range n).map f)[i]? = some (f i) := by
    rw [List.getElem?_map, List.getElem?_range h]
    rfl
  rw [List.getD_eq_getElem?_getD, h1]
  rfl

/-! ### Frame lemmas for the hook run -/

theorem addEdge_graph_length {NP EP : Type _} (s : GraphState NP EP) (e : Nat × Nat)
    (p : EP) (c : ℚ) : (addEdge s e p c).1.graph.length = s.graph.length := by
  unfold addEdge
  split <;> simp

theorem addEdge_node_properties {NP EP : Type _} (s : GraphState NP EP) (e : Nat × Nat)
    (p : EP) (c : ℚ) : (addEdge s e p c).1.node_properties = s.node_properties := by
  unfold addEdge
  split <;> simp

theorem addEdge_markers {NP EP : Type _} (s : GraphState NP EP) (e : Nat × Nat)
    (p : EP) (c : ℚ) : (addEdge s e p c).1.start_idx = s.start_idx ∧
    (addEdge s e p c).1.goal_idx = s.goal_idx := by
  unfold addEdge
  split <;> simp

theorem runHook_graph_length {NP EP : Type _} (l : List ((Nat × Nat) × EP × ℚ))
    (s : GraphState NP EP) : (runHook s l).graph.length = s.graph.length := by
  induction l generalizing s with
  | nil => rfl
  | cons a t ih =>
    obtain ⟨e, p, c⟩ := a
    simpa [runHook, addEdge_graph_length] using
      (ih (addEdge s e p c).1).trans (addEdge_graph_length s e p c)

theorem runHook_node_properties {NP EP : Type _} (l : List ((Nat × Nat) × EP × ℚ))
    (s : GraphState NP EP) : (runHook s l).node_properties = s.node_properties := by
  induction l generalizing s with
  | nil => rfl
  | cons a t ih =>
    obtain ⟨e, p, c⟩ := a
    simpa [runHook] using (ih (addEdge s e p c).1).trans (addEdge_node_properties s e p c)

theorem runHook_markers {NP EP : Type _} (l : List ((Nat × Nat) × EP × ℚ))
    (s : GraphState NP EP) : (runHook s l).start_idx = s.start_idx ∧
    (runHook s l).goal_idx = s.goal_idx := by
  induction l generalizing s with
  | nil => exact ⟨rfl, rfl⟩
  | cons a t ih =>
    obtain ⟨e, p, c⟩ := a
    have h1 := ih (addEdge s e p c).1
    have h2 := addEdge_markers s e p c
    exact ⟨by rw [runHook, h1.1, h2.1], by rw [runHook, h1.2, h2.2]⟩

theorem lookupKey_append_of_none {κ β : Type _} [DecidableEq κ] {m : List (κ × β)}
    {k : κ} (h : lookupKey m k = none) (v : β) :
    lookupKey (m ++ [(k, v)]) k = some v := by
  induction m with
  | nil => simp [lookupKey]
  | cons a t ih =>
    simp only [lookupKey] at h
    by_cases hk : a.1 = k
    · rw [if_pos hk] at h
      exact absurd h (by simp)
    · rw [if_neg hk] at h
      simp only [List.cons_append, lookupKey, if_neg hk]
      exact ih h

theorem addEdge_nonneg {NP EP : Type _} (s : GraphState NP EP)
    (hs : NonNegGraph s.graph) (e : Nat × Nat) (p : EP) (c : ℚ) :
    NonNegGraph ((addEdge s e p c).1.graph) := by
  unfold addEdge
  split
  case isTrue h =>
    intro row hrow en hen
    rcases List.mem_or_eq_of_mem_set hrow with hrow | hrow
    · exact hs row hrow en hen
    · subst hrow
      rcases rowSet_mem hen with hmem | hmem
      · have hgd : s.graph.getD e.1 [] ∈ s.graph := by
          rw [List.getD_eq_getElem?_getD, List.getElem?_eq_getElem h.2]
          exact List.getElem_mem h.2
        exact hs _ hgd en hmem
      · rw [hmem]
        exact h.1
  case isFalse h => exact hs

theorem runHook_nonneg {NP EP : Type _} (l : List ((Nat × Nat) × EP × ℚ))
    (s : GraphState NP EP) (hs : NonNegGraph s.graph) :
    NonNegGraph ((runHook s l).graph) := by
  induction l generalizing s with
  | nil => exact hs
  | cons a t ih =>
    obtain ⟨e, p, c⟩ := a
    exact ih _ (addEdge_nonneg s hs e p c)

theorem addNode_nonneg {NP EP : Type _} (s : GraphState NP EP)
    (hs : NonNegGraph s.graph) (np : NP) (hook : HookBehavior EP) :
    NonNegGraph ((addNode s np hook).1.graph) := by
  have h1 : NonNegGraph (s.graph ++ [([] : Row)]) := by
    intro row hrow en hen
    rcases List.mem_append.mp hrow with hrow | hrow
    · exact hs row hrow en hen
    · simp only [List.mem_singleton] at hrow
      subst hrow
      simp at hen
  have h2 : NonNegGraph ((runHook
      { s with
          graph := s.graph ++ [[]],
          node_properties :=
            insertIfAbsent s.node_properties ((s.graph ++ [([] : Row)]).length - 1) np }
      hook.1).graph) := runHook_nonneg hook.1 _ h1
  unfold addNode
  split
  · exact h2
  · intro row hrow en hen
    exact h2 row ((List.dropLast_sublist _).subset hrow) en hen

/-! ### Claim C7 -/

/-- C7: after `clearEdges()`, `nodeExists` and `nodePropertyExists` answer as
before for every index, the start and goal markers are unchanged, and
`edgeExists` is false for every edge identifier. -/
theorem clearEdges_frame {NP EP : Type _} (s : GraphState NP EP) :
    (∀ i, nodeExists (clearEdges s) i = nodeExists s i) ∧
    (∀ i, nodePropertyExists (clearEdges s) i = nodePropertyExists s i) ∧
    (clearEdges s).start_idx = s.start_idx ∧
    (clearEdges s).goal_idx = s.goal_idx ∧
    (∀ e, edgeExists (clearEdges s) e = false) := by
  refine ⟨fun i => ?_, fun i => rfl, rfl, rfl, fun e => ?_⟩
  · simp [nodeExists, clearEdges]
  · simp [edgeExists, clearEdges, getD_map_const_nil, lookupKey]

/-! ### Claim C9 -/

/-- C9: with the start/goal markers unset (the `size_t` maximum sentinel, as
`clear()` leaves them), the zero-argument `solveDijkstra` and `solveAStar`
overloads return false (the node-existence guard rejects the sentinel). -/
theorem solveAuto_unset_markers {NP EP : Type _} (s : GraphState NP EP)
    (hres : HeuristicBehavior) (sol sol2 : List Nat)
    (hstart : s.start_idx = sizeTMax) (hgoal : s.goal_idx = sizeTMax)
    (hsz : s.graph.length ≤ sizeTMax) :
    (solveDijkstraAuto s sol).1 = false ∧ (solveAStarAuto s hres sol2).1 = false ∧
    (clear s).start_idx = sizeTMax ∧ (clear s).goal_idx = sizeTMax := by
  have hn : ¬(s.start_idx < s.graph.length ∧ s.goal_idx < s.graph.length) := by
    rw [hstart]
    intro hc
    omega
  refine ⟨?_, ?_, rfl, rfl⟩
  · simp [solveDijkstraAuto, solveDijkstra, hn]
  · simp [solveAStarAuto, solveAStar, hn]

/-- Witness for C9 at a concrete one-node graph with unset markers. -/
theorem solveAuto_unset_markers_witness :
    (solveDijkstraAuto (⟨[[]], [], [], sizeTMax, sizeTMax, false⟩ : GraphState Unit Unit)
        []).1 = false ∧
    (solveAStarAuto (⟨[[]], [], [], sizeTMax, sizeTMax, false⟩ : GraphState Unit Unit)
        (true, fun _ => some 0) []).1 = false :=
  ⟨(solveAuto_unset_markers _ (true, fun _ => some 0) [] [] rfl rfl
      (by norm_num [sizeTMax])).1,
   (solveAuto_unset_markers _ (true, fun _ => some 0) [] [] rfl rfl
      (by norm_num [sizeTMax])).2.1⟩

/-! ### Claim C10 -/

theorem dijkstraLoop_false_nil (g : Graph) (goal : Nat) :
    ∀ fuel st l, dijkstraLoop g goal fuel st = (false, l) → l = [] := by
  intro fuel
  induction fuel with
  | zero =>
    intro st l h
    rw [dijkstraLoop] at h
    exact (Prod.mk.injEq _ _ _ _ ▸ h).2.symm
  | succ n ih =>
    intro st l h
    rw [dijkstraLoop] at h
    rcases hos : st.openSet with _ | ⟨x, xs⟩
    · rw [hos] at h
      exact (Prod.mk.injEq _ _ _ _ ▸ h).2.symm
    · rw [hos] at h
      simp only at h
      by_cases hc : minElem st.cost x xs = goal
      · rw [if_pos hc] at h
        exact absurd ((Prod.mk.injEq _ _ _ _ ▸ h).1) (by simp)
      · rw [if_neg hc] at h
        exact ih _ _ h

/-- C10: on every failure `solveDijkstra` hands back an empty solution (it
clears the container on entry), while `solveAStar` hands back exactly the
contents the container had before the call (it never clears it). -/
theorem solve_failure_containers {NP EP : Type _} (s : GraphState NP EP)
    (hres : HeuristicBehavior) (a b : Nat) (sol sol2 : List Nat)
    (h1 : (solveDijkstra s a b sol).1 = false)
    (h2 : (solveAStar s hres a b sol2).1 = false) :
    (solveDijkstra s a b sol).2 = [] ∧ (solveAStar s hres a b sol2).2 = sol2 := by
  constructor
  · rcases hd : solveDijkstra s a b sol with ⟨bb, l⟩
    rw [hd] at h1
    simp only at h1
    subst h1
    unfold solveDijkstra at hd
    split at hd
    · exact dijkstraLoop_false_nil _ _ _ _ _ hd
    · exact ((Prod.mk.injEq _ _ _ _ ▸ hd).2).symm
  · rcases ha : solveAStar s hres a b sol2 with ⟨bb, l⟩
    rw [ha] at h2
    simp only at h2
    subst h2
    unfold solveAStar at ha
    split at ha
    · split at ha
      · split at ha
        · exact ((Prod.mk.injEq _ _ _ _ ▸ ha).2).symm
        · split at ha
          · exact ((Prod.mk.injEq _ _ _ _ ▸ ha).2).symm
          · exact absurd ((Prod.mk.injEq _ _ _ _ ▸ ha).1) (by simp)
      · exact ((Prod.mk.injEq _ _ _ _ ▸ ha).2).symm
    · exact ((Prod.mk.injEq _ _ _ _ ▸ ha).2).symm

/-- Witness for C10: both solvers fail on the empty graph; Dijkstra empties
the container, A* leaves it untouched. -/
theorem solve_failure_containers_witness :
    (solveDijkstra (⟨[], [], [], 0, 0, false⟩ : GraphState Unit Unit) 0 0 [5]).2 = [] ∧
    (solveAStar (⟨[], [], [], 0, 0, false⟩ : GraphState Unit Unit)
        (true, fun _ => some 0) 0 0 [5]).2 = [5] :=
  solve_failure_containers (⟨[], [], [], 0, 0, false⟩ : GraphState Unit Unit)
    (true, fun _ => some 0) 0 0 [5] [5] (by decide) (by decide)

/-! ### Claim C8 -/

/-- C8: all graph operations preserve non-negativity of every stored
adjacency cost, and `addEdge` with a negative cost fails without mutating
anything. -/
theorem nonneg_invariant {NP EP : Type _} (s : GraphState NP EP)
    (hs : NonNegGraph s.graph) :
    (∀ e p c, NonNegGraph ((addEdge s e p c).1.graph)) ∧
    (∀ np hook, NonNegGraph ((addNode s np hook).1.graph)) ∧
    (∀ np hook, NonNegGraph ((addStartNode s np hook).1.graph)) ∧
    (∀ np hook, NonNegGraph ((addGoalNode s np hook).1.graph)) ∧
    NonNegGraph (clear s).graph ∧
    NonNegGraph (clearEdges s).graph ∧
    (∀ e p c, c < 0 → addEdge s e p c = (s, false)) := by
  refine ⟨fun e p c => addEdge_nonneg s hs e p c,
    fun np hook => addNode_nonneg s hs np hook,
    fun np hook => by
      unfold addStartNode
      exact addNode_nonneg { s with start_idx := s.graph.length } hs np hook,
    fun np hook => by
      unfold addGoalNode
      exact addNode_nonneg { s with goal_idx := s.graph.length } hs np hook,
    ?_, ?_, fun e p c hc => ?_⟩
  · intro row hrow
    simp [clear] at hrow
  · intro row hrow en hen
    simp only [clearEdges, List.mem_map] at hrow
    obtain ⟨_, _, hrow⟩ := hrow
    rw [← hrow] at hen
    simp at hen
  · unfold addEdge
    rw [if_neg]
    intro h
    exact absurd h.1 (by linarith)

/-! ### Order bridge: `Option ℚ` cost values into `WithTop ℚ` -/

theorem qlt_iff (a b : Option ℚ) : qlt a b = true ↔ val a < val b := by
  cases a <;> cases b <;>
    simp [qlt, val, WithTop.coe_lt_coe, WithTop.coe_lt_top]

theorem qlt_false_iff (a b : Option ℚ) : qlt a b = false ↔ val b ≤ val a := by
  rw [← Bool.not_eq_true, qlt_iff, not_lt]

theorem val_qadd (a : Option ℚ) (w : ℚ) :
    val (qadd a w) = val a + (w : WithTop ℚ) := by
  cases a with
  | none => simp [qadd, val]
  | some x => simp [qadd, val, ← WithTop.coe_add]

theorem val_eq_top_iff (a : Option ℚ) : val a = ⊤ ↔ a = none := by
  cases a <;> simp [val]

theorem val_some (c : ℚ) : val (some c) = (c : WithTop ℚ) := rfl

/-! ### `minElem` and `insertSorted` -/

theorem minElem_mem (cost : Nat → Option ℚ) (b : Nat) (l : List Nat) :
    minElem cost b l ∈ b :: l := by
  induction l generalizing b with
  | nil => simp [minElem]
  | cons x t ih =>
    rw [minElem]
    split
    · rcases List.mem_cons.mp (ih x) with h | h
      · simp [h]
      · simp [List.mem_cons_of_mem, h]
    · rcases List.mem_cons.mp (ih b) with h | h
      · simp [h]
      · simp [List.mem_cons_of_mem, h]

theorem minElem_min (cost : Nat → Option ℚ) :
    ∀ (l : List Nat) (b : Nat), ∀ x ∈ b :: l,
      val (cost (minElem cost b l)) ≤ val (cost x) := by
  intro l
  induction l with
  | nil =>
    intro b x hx
    simp only [List.mem_singleton] at hx
    simp [minElem, hx]
  | cons y t ih =>
    intro b x hx
    rw [minElem]
    rcases List.mem_cons.mp hx with hx | hx
    · subst hx
      split
      case isTrue hlt =>
        rw [qlt_iff] at hlt
        exact le_trans (ih y y (by simp)) hlt.le
      case isFalse hlt => exact ih x x (by simp)
    · rcases List.mem_cons.mp hx with hx | hx
      · subst hx
        split
        case isTrue hlt => exact ih x x (by simp)
        case isFalse hlt =>
          rw [Bool.not_eq_true, qlt_false_iff] at hlt
          exact le_trans (ih b b (by simp)) hlt
      · split
        case isTrue hlt => exact ih y x (by simp [hx])
        case isFalse hlt => exact ih b x (by simp [hx])

theorem mem_insertSorted (a x : Nat) (l : List Nat) :
    x ∈ insertSorted a l ↔ x = a ∨ x ∈ l := by
  induction l with
  | nil => simp [insertSorted]
  | cons b t ih =>
    rw [insertSorted]
    split
    · simp [or_comm, List.mem_cons, or_assoc]
    · split
      case isTrue heq => subst heq; simp [List.mem_cons]
      case isFalse heq =>
        simp only [List.mem_cons, ih]
        tauto

theorem insertSorted_sorted (a : Nat) (l : List Nat) (h : l.Sorted (· < ·)) :
    (insertSorted a l).Sorted (· < ·) := by
  induction l with
  | nil => simp [insertSorted]
  | cons b t ih =>
    rw [List.sorted_cons] at h
    rw [insertSorted]
    split
    case isTrue hab =>
      rw [List.sorted_cons]
      refine ⟨fun x hx => ?_, List.sorted_cons.mpr h⟩
      rcases List.mem_cons.mp hx with hx | hx
      · omega
      · exact lt_trans hab (h.1 x hx)
    · split
      case isTrue heq => exact List.sorted_cons.mpr h
      case isFalse hne =>
        rename_i hab
        rw [List.sorted_cons]
        refine ⟨fun x hx => ?_, ih h.2⟩
        rcases (mem_insertSorted a x t).mp hx with hx | hx
        · omega
        · exact h.1 x hx

/-! ### `Chain` and `GPath` lemmas -/

theorem chain_decomp {cf : Nat → Option Nat} {n : Nat} {p : List Nat}
    (h : Chain cf n p) : ∃ q, p = q ++ [n] := by
  cases h with
  | nil _ => exact ⟨[], rfl⟩
  | cons _ _ => exact ⟨_, rfl⟩

theorem chain_congr {cf cf' : Nat → Option Nat} {n : Nat} {p : List Nat}
    (hagree : ∀ x ∈ p, cf' x = cf x) (h : Chain cf n p) : Chain cf' n p := by
  induction h with
  | nil hn => exact Chain.nil ((hagree _ (by simp)).trans hn)
  | cons hn hm ih =>
    refine Chain.cons ((hagree _ (by simp)).trans hn) (ih fun x hx => hagree x ?_)
    simp [hx]

theorem chain_reconstruct {cf : Nat → Option Nat} {n : Nat} {p : List Nat}
    (h : Chain cf n p) : ∀ fuel, p.length ≤ fuel + 1 →
    reconstructSolution cf n fuel = p := by
  induction h with
  | nil hn =>
    intro fuel _
    cases fuel with
    | zero => rfl
    | succ k => rw [reconstructSolution, hn]
  | cons hn hm ih =>
    rename_i nn mm pp
    intro fuel hlen
    cases fuel with
    | zero =>
      exfalso
      have := chain_decomp hm
      obtain ⟨q, hq⟩ := this
      rw [hq] at hlen
      simp at hlen
    | succ k =>
      rw [reconstructSolution, hn]
      show reconstructSolution cf mm k ++ [nn] = pp ++ [nn]
      rw [ih k (by simpa using hlen)]

theorem gpath_nonneg {g : Graph} (hNN : NonNegGraph g) {s t : Nat} {p : List Nat}
    {c : ℚ} (h : GPath g s t p c) : 0 ≤ c := by
  induction h with
  | single => exact le_refl 0
  | snoc hp he ih =>
    rename_i u v pp cc w
    have hu : u < g.length := by
      by_contra hu
      rw [List.getD_eq_getElem?_getD, List.getElem?_eq_none (by omega)] at he
      simp [lookupKey] at he
    have hrow : g.getD u [] ∈ g := by
      rw [List.getD_eq_getElem?_getD, List.getElem?_eq_getElem hu]
      exact List.getElem_mem hu
    have hw : 0 ≤ w := hNN _ hrow _ (lookupKey_mem he)
    linarith

theorem gpath_edge_src_lt {g : Graph} {u v : Nat} {w : ℚ}
    (he : lookupKey (g.getD u []) v = some w) : u < g.length := by
  by_contra hu
  rw [List.getD_eq_getElem?_getD, List.getElem?_eq_none (by omega)] at he
  simp [lookupKey] at he

theorem gpath_decomp {g : Graph} {s t : Nat} {p : List Nat} {c : ℚ}
    (h : GPath g s t p c) : ∃ q, p = q ++ [t] := by
  cases h with
  | single => exact ⟨[], rfl⟩
  | snoc _ _ => exact ⟨_, rfl⟩

theorem getD_mem_of_lt (g : Graph) (u : Nat) (hu : u < g.length) :
    g.getD u [] ∈ g := by
  rw [List.getD_eq_getElem?_getD, List.getElem?_eq_getElem hu]
  exact List.getElem_mem hu

theorem updFn_self {β : Type _} (f : Nat → β) (k : Nat) (v : β) : updFn f k v k = v := by
  simp [updFn]

theorem updFn_ne {β : Type _} (f : Nat → β) (k : Nat) (v : β) {n : Nat} (h : n ≠ k) :
    updFn f k v n = f n := by
  simp [updFn, h]

theorem val_ne_none_of_le_coe {a : Option ℚ} {c : ℚ}
    (h : val a ≤ (c : WithTop ℚ)) : a ≠ none := by
  intro hn
  rw [hn] at h
  simp only [val, top_le_iff] at h
  exact WithTop.coe_ne_top h

/-! ### The Dijkstra relaxation step preserves the invariant -/

theorem relaxOne_spec (g : Graph) (hWF : WellFormed g) (hNN : NonNegGraph g)
    (start cur : Nat) (hcurN : cur < g.length) (e : Nat × ℚ) (he : e ∈ g.getD cur [])
    (st : DState) (hcore : DCore g start st) (hcur : cur ∈ st.closed) :
    DCore g start (relaxOne cur st e) ∧
    (relaxOne cur st e).closed = st.closed ∧
    (∀ n, val ((relaxOne cur st e).cost n) ≤ val (st.cost n)) ∧
    (∀ u ∈ st.closed, (relaxOne cur st e).cost u = st.cost u) ∧
    (∀ x ∈ st.openSet, x ∈ (relaxOne cur st e).openSet) ∧
    (val ((relaxOne cur st e).cost e.1) ≤
        val ((relaxOne cur st e).cost cur) + (e.2 : WithTop ℚ)) ∧
    (e.1 ∈ (relaxOne cur st e).openSet ∨ e.1 ∈ (relaxOne cur st e).closed) := by
  have hrowmem : g.getD cur [] ∈ g := getD_mem_of_lt g cur hcurN
  have he1N : e.1 < g.length := (hWF _ hrowmem).1 e he
  have hw : 0 ≤ e.2 := hNN _ hrowmem e he
  have hlook : lookupKey (g.getD cur []) e.1 = some e.2 :=
    lookupKey_of_mem_nodup (hWF _ hrowmem).2 he
  have hcurfin : st.cost cur ≠ none := hcore.closedFinite cur hcur
  obtain ⟨ccur, hccur⟩ : ∃ c, st.cost cur = some c :=
    Option.ne_none_iff_exists'.mp hcurfin
  obtain ⟨pc, hchainc, hgpc, hndc, hdlc, hltc⟩ := hcore.real cur ccur hccur
  have hccnn : 0 ≤ ccur := gpath_nonneg hNN hgpc
  have hpcmem : ∀ x ∈ pc, x ∈ st.closed := by
    obtain ⟨q, hq⟩ := gpath_decomp hgpc
    intro x hx
    rw [hq] at hx
    rcases List.mem_append.mp hx with hx | hx
    · have := hdlc x (by rw [hq]; simpa using hx)
      exact this
    · simp only [List.mem_singleton] at hx
      rw [hx]
      exact hcur
  rw [relaxOne]
  by_cases hcl : e.1 ∈ st.closed
  · rw [if_pos hcl]
    refine ⟨hcore, rfl, fun n => le_refl _, fun u _ => rfl, fun x hx => hx, ?_,
      Or.inr hcl⟩
    have hext : GPath g start e.1 (pc ++ [e.1]) (ccur + e.2) := GPath.snoc hgpc hlook
    have hle := hcore.closedOpt e.1 hcl _ _ hext
    rw [hccur]
    calc val (st.cost e.1) ≤ ((ccur + e.2 : ℚ) : WithTop ℚ) := hle
      _ = ((ccur : ℚ) : WithTop ℚ) + ((e.2 : ℚ) : WithTop ℚ) := by
          rw [← WithTop.coe_add]
      _ = val (some ccur) + ((e.2 : ℚ) : WithTop ℚ) := rfl
  · rw [if_neg hcl]
    have hcurne : cur ≠ e.1 := fun hc => hcl (hc ▸ hcur)
    have he1pc : e.1 ∉ pc := fun hc => hcl (hpcmem e.1 hc)
    have htent : qadd (st.cost cur) e.2 = some (ccur + e.2) := by
      rw [hccur]
      rfl
    by_cases hq : qlt (qadd (st.cost cur) e.2) (st.cost e.1) = true
    · rw [if_pos hq]
      dsimp only
      have hstart_ne : e.1 ≠ start := by
        intro hc
        rw [hc, hcore.costStart, htent, qlt_iff, val_some, val_some,
          WithTop.coe_lt_coe] at hq
        linarith
      have hcost_self : updFn st.cost e.1 (qadd (st.cost cur) e.2) e.1 =
          some (ccur + e.2) := by rw [updFn_self, htent]
      refine ⟨?_, rfl, ?_, ?_, ?_, ?_, ?_⟩
      · refine ⟨insertSorted_sorted _ _ hcore.openSorted, ?_, hcore.closedLt, ?_,
          hcore.closedNodup, ?_, ?_, ?_, ?_, ?_, ?_, ?_⟩
        all_goals dsimp only
        · intro x hx
          rcases (mem_insertSorted _ _ _).mp hx with hx | hx
          · rw [hx]; exact he1N
          · exact hcore.openLt x hx
        · intro x hx
          rcases (mem_insertSorted _ _ _).mp hx with hx | hx
          · rw [hx]; exact hcl
          · exact hcore.openClosed x hx
        · intro x hx
          rcases (mem_insertSorted _ _ _).mp hx with hx | hx
          · rw [hx, hcost_self]; simp
          · by_cases hxe : x = e.1
            · rw [hxe, hcost_self]; simp
            · rw [updFn_ne _ _ _ hxe]; exact hcore.openFinite x hx
        · intro u hu
          have hune : u ≠ e.1 := by
            intro hc
            rw [hc] at hu
            exact hcl hu
          rw [updFn_ne _ _ _ hune]
          exact hcore.closedFinite u hu
        · rw [updFn_ne _ _ _ (Ne.symm hstart_ne)]
          exact hcore.costStart
        · rcases hcore.startMem with h | h
          · exact Or.inl ((mem_insertSorted _ _ _).mpr (Or.inr h))
          · exact Or.inr h
        · intro n c hc
          by_cases hn : n = e.1
          · subst hn
            rw [hcost_self] at hc
            obtain rfl : ccur + e.2 = c := Option.some.inj hc
            refine ⟨pc ++ [e.1], ?_, GPath.snoc hgpc hlook, ?_, ?_, ?_⟩
            · refine Chain.cons (updFn_self _ _ _) (chain_congr ?_ hchainc)
              intro x hx
              exact updFn_ne _ _ _ (fun hc2 => he1pc (hc2 ▸ hx))
            · rw [List.nodup_append]
              exact ⟨hndc, by simp, by
                intro a ha hb
                simp only [List.mem_singleton] at hb
                exact he1pc (hb ▸ ha)⟩
            · intro x hx
              rw [List.dropLast_concat] at hx
              exact hpcmem x hx
            · intro x hx
              rcases List.mem_append.mp hx with hx | hx
              · exact hltc x hx
              · simp only [List.mem_singleton] at hx
                rw [hx]; exact he1N
          · rw [updFn_ne _ _ _ hn] at hc
            obtain ⟨p, hchain, hgp, hnd, hdl, hlt⟩ := hcore.real n c hc
            have hpmem_ne : ∀ x ∈ p, x ≠ e.1 := by
              obtain ⟨q, hqp⟩ := gpath_decomp hgp
              intro x hx
              rw [hqp] at hx
              rcases List.mem_append.mp hx with hx | hx
              · intro hc2
                exact hcl (hc2 ▸ hdl x (by rw [hqp, List.dropLast_concat]; exact hx))
              · simp only [List.mem_singleton] at hx
                rw [hx]; exact hn
            exact ⟨p, chain_congr (fun x hx => updFn_ne _ _ _ (hpmem_ne x hx)) hchain,
              hgp, hnd, hdl, hlt⟩
        · intro n m hnm
          by_cases hn : n = e.1
          · rw [hn, updFn_self] at hnm
            obtain rfl : cur = m := Option.some.inj hnm
            exact hcur
          · rw [updFn_ne _ _ _ hn] at hnm
            exact hcore.cameClosed n m hnm
        · intro u hu p c hgp
          have hune : u ≠ e.1 := by
            intro hc
            rw [hc] at hu
            exact hcl hu
          rw [updFn_ne _ _ _ hune]
          exact hcore.closedOpt u hu p c hgp
      · intro n
        by_cases hn : n = e.1
        · rw [hn, hcost_self]
          rw [qlt_iff, htent] at hq
          exact (le_of_lt hq)
        · rw [updFn_ne _ _ _ hn]
      · intro u hu
        have hune : u ≠ e.1 := by
          intro hc
          rw [hc] at hu
          exact hcl hu
        exact updFn_ne _ _ _ hune
      · intro x hx
        exact (mem_insertSorted _ _ _).mpr (Or.inr hx)
      · rw [hcost_self, updFn_ne _ _ _ hcurne, hccur]
        rw [val_some, val_some, ← WithTop.coe_add]
      · exact Or.inl ((mem_insertSorted _ _ _).mpr (Or.inl rfl))
    · rw [if_neg hq]
      dsimp only
      have hle : val (st.cost e.1) ≤ val (qadd (st.cost cur) e.2) := by
        rw [← qlt_false_iff]
        exact Bool.not_eq_true _ ▸ (by simpa using hq)
      have he1fin : st.cost e.1 ≠ none := by
        refine val_ne_none_of_le_coe (c := ccur + e.2) ?_
        rw [htent] at hle
        exact hle
      refine ⟨?_, rfl, fun n => le_refl _, fun u _ => rfl, ?_, ?_, ?_⟩
      · refine ⟨insertSorted_sorted _ _ hcore.openSorted, ?_, hcore.closedLt, ?_,
          hcore.closedNodup, ?_, hcore.closedFinite, hcore.costStart, ?_,
          hcore.real, hcore.cameClosed, hcore.closedOpt⟩
        all_goals dsimp only
        · intro x hx
          rcases (mem_insertSorted _ _ _).mp hx with hx | hx
          · rw [hx]; exact he1N
          · exact hcore.openLt x hx
        · intro x hx
          rcases (mem_insertSorted _ _ _).mp hx with hx | hx
          · rw [hx]; exact hcl
          · exact hcore.openClosed x hx
        · intro x hx
          rcases (mem_insertSorted _ _ _).mp hx with hx | hx
          · rw [hx]; exact he1fin
          · exact hcore.openFinite x hx
        · rcases hcore.startMem with h | h
          · exact Or.inl ((mem_insertSorted _ _ _).mpr (Or.inr h))
          · exact Or.inr h
      · intro x hx
        exact (mem_insertSorted _ _ _).mpr (Or.inr hx)
      · rw [val_qadd] at hle
        exact hle
      · exact Or.inl ((mem_insertSorted _ _ _).mpr (Or.inl rfl))

theorem relaxAll_cons (cur : Nat) (st : DState) (e : Nat × ℚ) (rest : Row) :
    relaxAll cur st (e :: rest) = relaxAll cur (relaxOne cur st e) rest := rfl

theorem relaxAll_spec (g : Graph) (hWF : WellFormed g) (hNN : NonNegGraph g)
    (start cur : Nat) (hcurN : cur < g.length) :
    ∀ entries : Row, (∀ e ∈ entries, e ∈ g.getD cur []) →
    ∀ st : DState, DCore g start st → cur ∈ st.closed →
      DCore g start (relaxAll cur st entries) ∧
      (relaxAll cur st entries).closed = st.closed ∧
      (∀ n, val ((relaxAll cur st entries).cost n) ≤ val (st.cost n)) ∧
      (∀ u ∈ st.closed, (relaxAll cur st entries).cost u = st.cost u) ∧
      (∀ x ∈ st.openSet, x ∈ (relaxAll cur st entries).openSet) ∧
      (∀ e ∈ entries,
        val ((relaxAll cur st entries).cost e.1) ≤
          val ((relaxAll cur st entries).cost cur) + (e.2 : WithTop ℚ) ∧
        (e.1 ∈ (relaxAll cur st entries).openSet ∨
          e.1 ∈ (relaxAll cur st entries).closed)) := by
  intro entries
  induction entries with
  | nil =>
    intro _ st hcore _
    exact ⟨hcore, rfl, fun n => le_refl _, fun u _ => rfl, fun x hx => hx, by simp⟩
  | cons e rest ih =>
    intro hent st hcore hcur
    obtain ⟨k1, k2, k3, k4, k5, k6, k7⟩ :=
      relaxOne_spec g hWF hNN start cur hcurN e (hent e (by simp)) st hcore hcur
    have hcur1 : cur ∈ (relaxOne cur st e).closed := k2 ▸ hcur
    obtain ⟨m1, m2, m3, m4, m5, m6⟩ :=
      ih (fun e2 he2 => hent e2 (by simp [he2])) (relaxOne cur st e) k1 hcur1
    rw [relaxAll_cons]
    refine ⟨m1, m2.trans k2, fun n => le_trans (m3 n) (k3 n), ?_, ?_, ?_⟩
    · intro u hu
      exact (m4 u (k2 ▸ hu)).trans (k4 u hu)
    · intro x hx
      exact m5 _ (k5 x hx)
    · intro e2 he2
      rcases List.mem_cons.mp he2 with he2 | he2
      · rw [he2]
        have hc : (relaxAll cur (relaxOne cur st e) rest).cost cur =
            (relaxOne cur st e).cost cur := m4 cur hcur1
        refine ⟨?_, ?_⟩
        · rw [hc]
          exact le_trans (m3 e.1) k6
        · rcases k7 with h | h
          · exact Or.inl (m5 _ h)
          · refine Or.inr ?_
            rw [m2]
            exact h
      · exact m6 e2 he2

/-! ### The pop of the minimal open node is optimal -/

theorem pop_optimal (g : Graph) (hNN : NonNegGraph g) (start : Nat) (st : DState)
    (hinv : DInv g start st) (current : Nat)
    (hmin : ∀ v ∈ st.openSet, val (st.cost current) ≤ val (st.cost v)) :
    ∀ (y : Nat) (p : List Nat) (c : ℚ), GPath g start y p c →
      (y ∈ st.closed → val (st.cost y) ≤ (c : WithTop ℚ)) ∧
      (y ∉ st.closed → val (st.cost current) ≤ (c : WithTop ℚ)) := by
  obtain ⟨hcore, hrelax⟩ := hinv
  intro y p c hgp
  induction hgp with
  | single =>
    constructor
    · intro _
      rw [hcore.costStart]
      exact le_refl _
    · intro hs
      rcases hcore.startMem with h | h
      · refine le_trans (hmin start h) ?_
        rw [hcore.costStart]
        exact le_refl _
      · exact absurd h hs
  | snoc hp he ih =>
    rename_i u v pp cc w
    constructor
    · intro hv
      exact hcore.closedOpt v hv _ _ (GPath.snoc hp he)
    · intro hv
      by_cases hu : u ∈ st.closed
      · have hrel := hrelax u hu (v, w) (lookupKey_mem he)
        have hopt := hcore.closedOpt u hu _ _ hp
        have h1 : val (st.cost v) ≤ ((cc : ℚ) : WithTop ℚ) + ((w : ℚ) : WithTop ℚ) :=
          le_trans hrel.1 (add_le_add_right hopt _)
        have hvopen : v ∈ st.openSet := hrel.2.resolve_right hv
        refine le_trans (hmin v hvopen) ?_
        rw [WithTop.coe_add]
        exact h1
      · have hwge : 0 ≤ w := by
          have huN := gpath_edge_src_lt he
          exact hNN _ (getD_mem_of_lt g u huN) _ (lookupKey_mem he)
        refine le_trans (ih.2 hu) ?_
        rw [WithTop.coe_le_coe]
        linarith

theorem closed_length_le (closed : List Nat) (N : Nat) (hnd : closed.Nodup)
    (hlt : ∀ x ∈ closed, x < N) : closed.length ≤ N := by
  calc closed.length = closed.toFinset.card := (List.toFinset_card_of_nodup hnd).symm
    _ ≤ (Finset.range N).card := Finset.card_le_card
        (fun x hx => Finset.mem_range.mpr (hlt x (List.mem_toFinset.mp hx)))
    _ = N := Finset.card_range N

/-! ### One loop iteration preserves the invariant -/

theorem dijkstra_step (g : Graph) (hWF : WellFormed g) (hNN : NonNegGraph g)
    (start : Nat) (st : DState) (hinv : DInv g start st)
    (x : Nat) (xs : List Nat) (hos : st.openSet = x :: xs)
    (current : Nat) (hcurdef : current = minElem st.cost x xs) :
    DInv g start (relaxAll current
      { st with openSet := st.openSet.erase current, closed := current :: st.closed }
      (g.getD current [])) ∧
    (relaxAll current
      { st with openSet := st.openSet.erase current, closed := current :: st.closed }
      (g.getD current [])).closed = current :: st.closed := by
  obtain ⟨hcore, hrelax⟩ := hinv
  have hmem : current ∈ st.openSet := by
    rw [hos, hcurdef]
    exact minElem_mem st.cost x xs
  have hmin : ∀ v ∈ st.openSet, val (st.cost current) ≤ val (st.cost v) := by
    intro v hv
    rw [hos] at hv
    rw [hcurdef]
    exact minElem_min st.cost xs x v hv
  have hcurN : current < g.length := hcore.openLt _ hmem
  have hncl : current ∉ st.closed := hcore.openClosed _ hmem
  have hfin : st.cost current ≠ none := hcore.openFinite _ hmem
  have hopnd : st.openSet.Nodup := hcore.openSorted.imp Nat.ne_of_lt
  have hpop := pop_optimal g hNN start st ⟨hcore, hrelax⟩ current hmin
  have hcore2 : DCore g start
      { st with openSet := st.openSet.erase current, closed := current :: st.closed } := by
    refine ⟨?_, ?_, ?_, ?_, ?_, ?_, ?_, hcore.costStart, ?_, ?_, ?_, ?_⟩
    all_goals dsimp only
    · exact hcore.openSorted.sublist (st.openSet.erase_sublist current)
    · intro a ha
      exact hcore.openLt a ((st.openSet.erase_sublist current).subset ha)
    · intro a ha
      rcases List.mem_cons.mp ha with ha | ha
      · rw [ha]; exact hcurN
      · exact hcore.closedLt a ha
    · intro a ha
      obtain ⟨hane, hamem⟩ := (hopnd.mem_erase_iff).mp ha
      intro hc
      rcases List.mem_cons.mp hc with hc | hc
      · exact hane hc
      · exact hcore.openClosed a hamem hc
    · exact List.nodup_cons.mpr ⟨hncl, hcore.closedNodup⟩
    · intro a ha
      exact hcore.openFinite a ((st.openSet.erase_sublist current).subset ha)
    · intro a ha
      rcases List.mem_cons.mp ha with ha | ha
      · rw [ha]; exact hfin
      · exact hcore.closedFinite a ha
    · rcases hcore.startMem with h | h
      · by_cases hsc : start = current
        · exact Or.inr (List.mem_cons.mpr (Or.inl hsc))
        · exact Or.inl (hopnd.mem_erase_iff.mpr ⟨hsc, h⟩)
      · exact Or.inr (List.mem_cons.mpr (Or.inr h))
    · intro n c hc
      obtain ⟨p, h1, h2, h3, h4, h5⟩ := hcore.real n c hc
      exact ⟨p, h1, h2, h3, fun a ha => List.mem_cons.mpr (Or.inr (h4 a ha)), h5⟩
    · intro n m hnm
      exact List.mem_cons.mpr (Or.inr (hcore.cameClosed n m hnm))
    · intro u hu p c hgp
      rcases List.mem_cons.mp hu with hu | hu
      · rw [hu] at hgp ⊢
        exact (hpop _ _ _ hgp).2 hncl
      · exact hcore.closedOpt u hu p c hgp
  have hcur2 : current ∈
      ({ st with openSet := st.openSet.erase current,
                 closed := current :: st.closed } : DState).closed :=
    List.mem_cons.mpr (Or.inl rfl)
  obtain ⟨m1, m2, m3, m4, m5, m6⟩ := relaxAll_spec g hWF hNN start current hcurN
    (g.getD current []) (fun _ he => he)
    ({ st with openSet := st.openSet.erase current,
               closed := current :: st.closed })
    hcore2 hcur2
  refine ⟨⟨m1, ?_⟩, m2⟩
  intro u hu
  rw [m2] at hu
  rcases List.mem_cons.mp hu with hu | hu
  · intro e he
    rw [hu] at he ⊢
    exact m6 e he
  · intro e he
    have hold := hrelax u hu e he
    have hu2 : u ∈
        ({ st with openSet := st.openSet.erase current,
                   closed := current :: st.closed } : DState).closed :=
      List.mem_cons.mpr (Or.inr hu)
    constructor
    · have hfrozen := m4 u hu2
      rw [hfrozen]
      refine le_trans (m3 e.1) ?_
      show val (st.cost e.1) ≤ val (st.cost u) + (e.2 : WithTop ℚ)
      exact hold.1
    · rcases hold.2 with h | h
      · by_cases hec : e.1 = current
        · rw [hec]
          refine Or.inr ?_
          rw [m2]
          exact hcur2
        · refine Or.inl (m5 e.1 ?_)
          show e.1 ∈ st.openSet.erase current
          exact hopnd.mem_erase_iff.mpr ⟨hec, h⟩
      · refine Or.inr ?_
        rw [m2]
        exact List.mem_cons.mpr (Or.inr h)

/-! ### Loop-level lemmas -/

theorem dijkstraLoop_sound (g : Graph) (hWF : WellFormed g) (hNN : NonNegGraph g)
    (start goal : Nat) :
    ∀ (fuel : Nat) (st : DState) (sol : List Nat), DInv g start st →
      dijkstraLoop g goal fuel st = (true, sol) →
      ∃ c, GPath g start goal sol c ∧
        ∀ p c2, GPath g start goal p c2 → c ≤ c2 := by
  intro fuel
  induction fuel with
  | zero =>
    intro st sol _ h
    rw [dijkstraLoop] at h
    exact absurd ((Prod.mk.injEq _ _ _ _ ▸ h).1) (by simp)
  | succ n ih =>
    intro st sol hinv h
    rw [dijkstraLoop] at h
    rcases hos : st.openSet with _ | ⟨x, xs⟩
    · rw [hos] at h
      exact absurd ((Prod.mk.injEq _ _ _ _ ▸ h).1) (by simp)
    · rw [hos] at h
      simp only at h
      by_cases hc : minElem st.cost x xs = goal
      · rw [if_pos hc] at h
        have hsol : sol =
            reconstructSolution st.cameFrom (minElem st.cost x xs) (g.length + 1) :=
          ((Prod.mk.injEq _ _ _ _ ▸ h).2).symm
        have hgoal_mem : goal ∈ st.openSet := by
          rw [hos, ← hc]
          exact minElem_mem st.cost x xs
        have hfin : st.cost goal ≠ none := hinv.1.openFinite goal hgoal_mem
        obtain ⟨c, hcost⟩ : ∃ c, st.cost goal = some c :=
          Option.ne_none_iff_exists'.mp hfin
        obtain ⟨p, hchain, hgp, hnd, _, hlt⟩ := hinv.1.real goal c hcost
        have hlen : p.length ≤ g.length := closed_length_le p g.length hnd hlt
        have hrec : reconstructSolution st.cameFrom goal (g.length + 1) = p :=
          chain_reconstruct hchain (g.length + 1) (by omega)
        have hmin : ∀ v ∈ st.openSet, val (st.cost goal) ≤ val (st.cost v) := by
          intro v hv
          rw [hos] at hv
          rw [← hc]
          exact minElem_min st.cost xs x v hv
        refine ⟨c, ?_, ?_⟩
        · rw [hsol, hc, hrec]
          exact hgp
        · intro p2 c2 hgp2
          have hpop := pop_optimal g hNN start st hinv goal hmin goal p2 c2 hgp2
          have hle : val (st.cost goal) ≤ (c2 : WithTop ℚ) := by
            by_cases hgcl : goal ∈ st.closed
            · exact hpop.1 hgcl
            · exact hpop.2 hgcl
          rw [hcost, val_some, WithTop.coe_le_coe] at hle
          exact hle
      · rw [if_neg hc] at h
        rw [← hos] at h
        exact ih _ _ (dijkstra_step g hWF hNN start st hinv x xs hos _ rfl).1 h

theorem reach_open_ne (g : Graph) (start : Nat) (st : DState) (hinv : DInv g start st) :
    ∀ (y : Nat) (p : List Nat) (c : ℚ), GPath g start y p c →
      y ∈ st.closed ∨ st.openSet ≠ [] := by
  obtain ⟨hcore, hrelax⟩ := hinv
  intro y p c hgp
  induction hgp with
  | single =>
    rcases hcore.startMem with h | h
    · exact Or.inr (List.ne_nil_of_mem h)
    · exact Or.inl h
  | snoc hp he ih =>
    rename_i u v pp cc w
    rcases ih with hu | hne
    · rcases (hrelax u hu _ (lookupKey_mem he)).2 with h | h
      · exact Or.inr (List.ne_nil_of_mem h)
      · exact Or.inl h
    · exact Or.inr hne

theorem dijkstraLoop_reaches (g : Graph) (hWF : WellFormed g) (hNN : NonNegGraph g)
    (start goal : Nat) (p0 : List Nat) (c0 : ℚ) (hreach : GPath g start goal p0 c0) :
    ∀ (fuel : Nat) (st : DState), DInv g start st → goal ∉ st.closed →
      g.length + 1 ≤ fuel + st.closed.length →
      (dijkstraLoop g goal fuel st).1 = true := by
  intro fuel
  induction fuel with
  | zero =>
    intro st hinv hgc hfuel
    exfalso
    have hle := closed_length_le st.closed g.length hinv.1.closedNodup hinv.1.closedLt
    omega
  | succ n ih =>
    intro st hinv hgc hfuel
    rw [dijkstraLoop]
    have hne : st.openSet ≠ [] :=
      (reach_open_ne g start st hinv goal p0 c0 hreach).resolve_left hgc
    rcases hos : st.openSet with _ | ⟨x, xs⟩
    · exact absurd hos hne
    · simp only
      by_cases hc : minElem st.cost x xs = goal
      · rw [if_pos hc]
      · rw [if_neg hc]
        rw [← hos]
        obtain ⟨hinv2, hclosed2⟩ := dijkstra_step g hWF hNN start st hinv x xs hos _ rfl
        refine ih _ hinv2 ?_ ?_
        · rw [hclosed2]
          intro hmem
          rcases List.mem_cons.mp hmem with h | h
          · exact hc h.symm
          · exact hgc h
        · rw [hclosed2]
          simp only [List.length_cons]
          omega

/-- The invariant holds at the initial Dijkstra state. -/
theorem dijkstra_init_inv (g : Graph) (start : Nat) (hs : start < g.length) :
    DInv g start
      { openSet := [start], closed := [], cameFrom := fun _ => none,
        cost := fun n => if n = start then some 0 else none } := by
  refine ⟨⟨?_, ?_, ?_, ?_, ?_, ?_, ?_, ?_, ?_, ?_, ?_, ?_⟩, ?_⟩
  all_goals dsimp only
  · simp
  · intro x hx
    simp only [List.mem_singleton] at hx
    rw [hx]; exact hs
  · intro x hx
    simp at hx
  · intro x _
    simp
  · simp
  · intro x hx
    simp only [List.mem_singleton] at hx
    simp [hx]
  · intro x hx
    simp at hx
  · simp
  · simp
  · intro n c hc
    by_cases hn : n = start
    · rw [if_pos hn] at hc
      obtain rfl : (0 : ℚ) = c := Option.some.inj hc
      subst hn
      refine ⟨[n], Chain.nil rfl, GPath.single, by simp, by simp, ?_⟩
      intro x hx
      simp only [List.mem_singleton] at hx
      rw [hx]; exact hs
    · rw [if_neg hn] at hc
      simp at hc
  · intro n m hnm
    simp at hnm
  · intro u hu
    simp at hu
  · intro u hu
    simp at hu

/-! ### Claim C1 -/

/-- C1: on a well-formed graph with non-negative edge costs, for existing
start and goal nodes with goal reachable from start, `solveDijkstra`
returns true and a node sequence that is a path from start to goal whose
cumulative edge cost is minimal over all directed paths. -/
theorem solveDijkstra_optimal {NP EP : Type _} (s : GraphState NP EP)
    (hWF : WellFormed s.graph) (hNN : NonNegGraph s.graph)
    (start goal : Nat) (hs : start < s.graph.length) (hg : goal < s.graph.length)
    (sol0 p0 : List Nat) (c0 : ℚ) (hreach : GPath s.graph start goal p0 c0) :
    ∃ sol c, solveDijkstra s start goal sol0 = (true, sol) ∧
      GPath s.graph start goal sol c ∧
      ∀ p c2, GPath s.graph start goal p c2 → c ≤ c2 := by
  have hinit := dijkstra_init_inv s.graph start hs
  have hguard : start < s.graph.length ∧ goal < s.graph.length := ⟨hs, hg⟩
  have hrun : solveDijkstra s start goal sol0 =
      dijkstraLoop s.graph goal (s.graph.length + 1)
        { openSet := [start], closed := [], cameFrom := fun _ => none,
          cost := fun n => if n = start then some 0 else none } := by
    unfold solveDijkstra
    rw [if_pos hguard]
  have htrue : (dijkstraLoop s.graph goal (s.graph.length + 1)
      { openSet := [start], closed := [], cameFrom := fun _ => none,
        cost := fun n => if n = start then some 0 else none }).1 = true :=
    dijkstraLoop_reaches s.graph hWF hNN start goal p0 c0 hreach _ _ hinit
      (by simp) (by simp)
  rcases hres : dijkstraLoop s.graph goal (s.graph.length + 1)
      { openSet := [start], closed := [], cameFrom := fun _ => none,
        cost := fun n => if n = start then some 0 else none } with ⟨b, sol⟩
  rw [hres] at htrue
  simp only at htrue
  subst htrue
  obtain ⟨c, hgp, hminimal⟩ :=
    dijkstraLoop_sound s.graph hWF hNN start goal _ _ sol hinit hres
  exact ⟨sol, c, by rw [hrun, hres], hgp, hminimal⟩

/-- Witness for C1: the one-node graph with `start = goal = 0`. -/
theorem solveDijkstra_optimal_witness :
    WellFormed ([[]] : Graph) ∧
    (∃ sol c, solveDijkstra (⟨[[]], [], [], 0, 0, false⟩ : GraphState Unit Unit)
        0 0 [] = (true, sol) ∧
      GPath [[]] 0 0 sol c ∧ ∀ p c2, GPath [[]] 0 0 p c2 → c ≤ c2) :=
  ⟨by decide,
   solveDijkstra_optimal (⟨[[]], [], [], 0, 0, false⟩ : GraphState Unit Unit)
     (by decide) (by decide) 0 0 (by decide) (by decide) [] [0] 0 GPath.single⟩

/-! ### Path-cost uniqueness and reweighting lemmas (for A*) -/

theorem gpath_ne_nil {g : Graph} {s t : Nat} {p : List Nat} {c : ℚ}
    (h : GPath g s t p c) : p ≠ [] := by
  cases h with
  | single => simp
  | snoc _ _ => simp

theorem gpath_snoc_cases {g : Graph} {s t : Nat} {p : List Nat} {c : ℚ}
    (h : GPath g s t p c) :
    (p = [s] ∧ t = s ∧ c = 0) ∨
    ∃ u q c1 w, p = q ++ [t] ∧ GPath g s u q c1 ∧
      lookupKey (g.getD u []) t = some w ∧ c = c1 + w ∧ q ≠ [] := by
  cases h with
  | single => exact Or.inl ⟨rfl, rfl, rfl⟩
  | snoc hp he => exact Or.inr ⟨_, _, _, _, rfl, hp, he, rfl, gpath_ne_nil hp⟩

theorem gpath_cost_unique {g : Graph} {s : Nat} :
    ∀ {t : Nat} {p : List Nat} {c : ℚ}, GPath g s t p c →
    ∀ {t2 : Nat} {c2 : ℚ}, GPath g s t2 p c2 → t = t2 ∧ c = c2 := by
  intro t p c h1
  induction h1 with
  | single =>
    intro t2 c2 h2
    rcases gpath_snoc_cases h2 with ⟨_, ht, hc⟩ | ⟨u, q, c1, w, heq, _, _, _, hqne⟩
    · exact ⟨ht.symm, hc.symm⟩
    · exfalso
      have hlen := congrArg List.length heq
      simp only [List.length_append, List.length_singleton] at hlen
      have : q = [] := by
        cases q with
        | nil => rfl
        | cons a t3 => simp at hlen
      exact hqne this
  | snoc hp he ih =>
    rename_i u v pp cc w
    intro t2 c2 h2
    rcases gpath_snoc_cases h2 with ⟨heq, _, _⟩ | hr
    · exfalso
      have hlen := congrArg List.length heq
      simp only [List.length_append, List.length_singleton] at hlen
      have hpp : pp = [] := by
        cases pp with
        | nil => rfl
        | cons a t3 => simp at hlen
      rw [hpp] at hp
      exact gpath_ne_nil hp rfl
    · obtain ⟨u2, q, c1, w2, heq, hq, hlook2, hc2, _⟩ := hr
      have hlen : pp.length = q.length := by
        have h3 := congrArg List.length heq
        simp only [List.length_append, List.length_singleton] at h3
        omega
      obtain ⟨hppq, hvt⟩ := List.append_inj heq hlen
      have hvt2 : v = t2 := by simpa using hvt
      rw [← hppq] at hq
      obtain ⟨huu2, hccc1⟩ := ih hq
      rw [← hvt2, ← huu2] at hlook2
      have hww : w = w2 := by
        rw [he] at hlook2
        exact Option.some.inj hlook2
      refine ⟨hvt2, ?_⟩
      rw [hc2, ← hccc1, ← hww]

theorem reweight_length (g : Graph) (hf : Nat → ℚ) :
    (reweight g hf).length = g.length := by
  simp [reweight]

theorem getD_of_le (g : Graph) (u : Nat) (h : g.length ≤ u) : g.getD u [] = [] :=
  List.getD_eq_default g [] h

theorem reweight_getD (g : Graph) (hf : Nat → ℚ) (u : Nat) (hu : u < g.length) :
    (reweight g hf).getD u [] =
      (g.getD u []).map fun e => (e.1, e.2 + hf e.1 - hf u) := by
  rw [reweight]
  exact getD_range_map _ _ _ _ hu

theorem lookupKey_map_val {β γ : Type _} (row : List (Nat × β)) (f : Nat → β → γ)
    (k : Nat) :
    lookupKey (row.map fun e => (e.1, f e.1 e.2)) k = (lookupKey row k).map (f k) := by
  induction row with
  | nil => rfl
  | cons a t ih =>
    simp only [List.map_cons, lookupKey]
    by_cases hk : a.1 = k
    · rw [if_pos hk, if_pos hk, hk]
      rfl
    · rw [if_neg hk, if_neg hk]
      exact ih

theorem reweight_lookup (g : Graph) (hf : Nat → ℚ) (u v : Nat) :
    lookupKey ((reweight g hf).getD u []) v =
      (lookupKey (g.getD u []) v).map (fun w => w + hf v - hf u) := by
  by_cases hu : u < g.length
  · rw [reweight_getD g hf u hu]
    exact lookupKey_map_val (g.getD u []) (fun a b => b + hf a - hf u) v
  · rw [getD_of_le g u (by omega), getD_of_le (reweight g hf) u (by
      rw [reweight_length]; omega)]
    rfl

theorem reweight_wf (g : Graph) (hf : Nat → ℚ) (hWF : WellFormed g) :
    WellFormed (reweight g hf) := by
  intro row hrow
  rw [reweight] at hrow
  obtain ⟨u, hu, hrow⟩ := List.mem_map.mp hrow
  have huN : u < g.length := List.mem_range.mp hu
  obtain ⟨h1, h2⟩ := hWF _ (getD_mem_of_lt g u huN)
  subst hrow
  constructor
  · intro e2 he2
    obtain ⟨e, he, he2⟩ := List.mem_map.mp he2
    rw [← he2]
    rw [reweight_length]
    exact h1 e he
  · rw [List.map_map]
    have : (Prod.fst ∘ fun e : Nat × ℚ => (e.1, e.2 + hf e.1 - hf u)) = Prod.fst := by
      funext e
      rfl
    rw [this]
    exact h2

theorem reweight_nonneg (g : Graph) (hf : Nat → ℚ)
    (hcons : ∀ u, u < g.length → ∀ e ∈ g.getD u [], hf u ≤ e.2 + hf e.1) :
    NonNegGraph (reweight g hf) := by
  intro row hrow e2 he2
  rw [reweight] at hrow
  obtain ⟨u, hu, hrow⟩ := List.mem_map.mp hrow
  have huN : u < g.length := List.mem_range.mp hu
  subst hrow
  obtain ⟨e, he, he2⟩ := List.mem_map.mp he2
  rw [← he2]
  have := hcons u huN e he
  simp only
  linarith

theorem gpath_reweight (g : Graph) (hf : Nat → ℚ) :
    ∀ {s t : Nat} {p : List Nat} {c : ℚ}, GPath g s t p c →
      GPath (reweight g hf) s t p (c + hf t - hf s) := by
  intro s t p c h
  induction h with
  | single =>
    have h0 : (0 : ℚ) + hf s - hf s = 0 := by ring
    rw [h0]
    exact GPath.single
  | snoc hp he ih =>
    rename_i u v pp cc w
    have he2 : lookupKey ((reweight g hf).getD u []) v =
        some (w + hf v - hf u) := by
      rw [reweight_lookup, he]
      rfl
    have h0 : cc + w + hf v - hf s = (cc + hf u - hf s) + (w + hf v - hf u) := by
      ring
    rw [h0]
    exact GPath.snoc ih he2

theorem gpath_reweight_rev (g : Graph) (hf : Nat → ℚ) :
    ∀ {s t : Nat} {p : List Nat} {c : ℚ}, GPath (reweight g hf) s t p c →
      GPath g s t p (c - hf t + hf s) := by
  intro s t p c h
  induction h with
  | single =>
    have h0 : (0 : ℚ) - hf s + hf s = 0 := by ring
    rw [h0]
    exact GPath.single
  | snoc hp he ih =>
    rename_i u v pp cc w
    rw [reweight_lookup] at he
    obtain ⟨w0, hw0, hw0e⟩ := Option.map_eq_some'.mp he
    have h0 : cc + w - hf v + hf s = (cc - hf u + hf s) + w0 := by
      rw [← hw0e]
      ring
    rw [h0]
    exact GPath.snoc ih hw0

/-! ### A* bisimulates Dijkstra on the reweighted graph -/

theorem qlt_map_add (a b : Option ℚ) (C : ℚ) :
    qlt (a.map fun c => c + C) (b.map fun c => c + C) = qlt a b := by
  cases a <;> cases b <;> simp [qlt, Option.map]

theorem minElem_congr_add (f f2 : Nat → Option ℚ) (C : ℚ)
    (hrel : ∀ n, f2 n = (f n).map (fun c => c + C)) :
    ∀ (l : List Nat) (b : Nat), minElem f2 b l = minElem f b l := by
  intro l
  induction l with
  | nil => intro b; rfl
  | cons x t ih =>
    intro b
    rw [minElem, minElem, hrel, hrel, qlt_map_add]
    split
    · exact ih x
    · exact ih b

theorem qadd_map_rel (x : Option ℚ) (a b : ℚ) :
    qadd (x.map fun c => c + a) b = (qadd x b).map fun c => c + a := by
  cases x with
  | none => rfl
  | some d =>
    show some (d + a + b) = some (d + b + a)
    congr 1
    ring

theorem relaxOne_bisim (g : Graph) (hWF : WellFormed g) (hf : Nat → ℚ)
    (hOpt : Nat → Option ℚ) (htot : ∀ n, n < g.length → hOpt n = some (hf n))
    (C : ℚ) (cur : Nat) (hcurN : cur < g.length) (e : Nat × ℚ)
    (he : e ∈ g.getD cur []) (ast : AState) (dst : DState)
    (hrel : RelAD hf C ast dst) :
    ∃ ast2, relaxOneA hOpt cur ast e = some ast2 ∧
      RelAD hf C ast2 (relaxOne cur dst (e.1, e.2 + hf e.1 - hf cur)) := by
  obtain ⟨ho, hc, hcf, hcost, hcostH⟩ := hrel
  have he1N : e.1 < g.length := (hWF _ (getD_mem_of_lt g cur hcurN)).1 e he
  rw [relaxOneA, relaxOne]
  dsimp only
  rw [ho, hc]
  by_cases hcl : e.1 ∈ dst.closed
  · rw [if_pos hcl, if_pos hcl]
    exact ⟨ast, rfl, ho, hc, hcf, hcost, hcostH⟩
  · rw [if_neg hcl, if_neg hcl]
    have hkey : qadd (ast.cost cur) e.2 =
        (qadd (dst.cost cur) (e.2 + hf e.1 - hf cur)).map
          (fun c => c + (C - hf e.1)) := by
      rw [hcost cur]
      cases dst.cost cur with
      | none => rfl
      | some d =>
        show some (d + (C - hf cur) + e.2) = some (d + (e.2 + hf e.1 - hf cur) + (C - hf e.1))
        congr 1
        ring
    have hcond : qlt (qadd (ast.cost cur) e.2) (ast.cost e.1) =
        qlt (qadd (dst.cost cur) (e.2 + hf e.1 - hf cur)) (dst.cost e.1) := by
      rw [hkey, hcost e.1, qlt_map_add]
    rw [hcond]
    by_cases hq : qlt (qadd (dst.cost cur) (e.2 + hf e.1 - hf cur)) (dst.cost e.1) = true
    · rw [if_pos hq, if_pos hq]
      rw [htot e.1 he1N]
      have hkey2 : qadd (qadd (ast.cost cur) e.2) (hf e.1) =
          (qadd (dst.cost cur) (e.2 + hf e.1 - hf cur)).map (fun c => c + C) := by
        rw [hkey]
        cases qadd (dst.cost cur) (e.2 + hf e.1 - hf cur) with
        | none => rfl
        | some d =>
          show some (d + (C - hf e.1) + hf e.1) = some (d + C)
          congr 1
          ring
      refine ⟨_, rfl, rfl, rfl, ?_, ?_, ?_⟩
      all_goals dsimp only
      · rw [hcf]
      · intro n
        by_cases hn : n = e.1
        · rw [hn, updFn_self, updFn_self, hkey]
        · rw [updFn_ne _ _ _ hn, updFn_ne _ _ _ hn]
          exact hcost n
      · intro n
        by_cases hn : n = e.1
        · rw [hn, updFn_self, updFn_self, hkey2]
        · rw [updFn_ne _ _ _ hn, updFn_ne _ _ _ hn]
          exact hcostH n
    · rw [if_neg hq, if_neg hq]
      exact ⟨_, rfl, rfl, rfl, hcf, hcost, hcostH⟩

theorem relaxAll_bisim (g : Graph) (hWF : WellFormed g) (hf : Nat → ℚ)
    (hOpt : Nat → Option ℚ) (htot : ∀ n, n < g.length → hOpt n = some (hf n))
    (C : ℚ) (cur : Nat) (hcurN : cur < g.length) :
    ∀ (row : Row), (∀ e ∈ row, e ∈ g.getD cur []) →
    ∀ (ast : AState) (dst : DState), RelAD hf C ast dst →
      ∃ ast2, relaxAllA hOpt cur ast row = some ast2 ∧
        RelAD hf C ast2
          (relaxAll cur dst (row.map fun e => (e.1, e.2 + hf e.1 - hf cur))) := by
  intro row
  induction row with
  | nil =>
    intro _ ast dst hrel
    exact ⟨ast, rfl, hrel⟩
  | cons e rest ih =>
    intro hent ast dst hrel
    obtain ⟨ast1, hsome1, hrel1⟩ := relaxOne_bisim g hWF hf hOpt htot C cur hcurN e
      (hent e (by simp)) ast dst hrel
    obtain ⟨ast2, hsome2, hrel2⟩ := ih (fun e2 he2 => hent e2 (by simp [he2]))
      ast1 (relaxOne cur dst (e.1, e.2 + hf e.1 - hf cur)) hrel1
    refine ⟨ast2, ?_, ?_⟩
    · rw [relaxAllA, hsome1]
      exact hsome2
    · rw [List.map_cons, relaxAll_cons]
      exact hrel2

theorem aStarLoop_bisim (g : Graph) (hWF : WellFormed g) (hf : Nat → ℚ)
    (hOpt : Nat → Option ℚ) (htot : ∀ n, n < g.length → hOpt n = some (hf n))
    (C : ℚ) (goal : Nat) :
    ∀ (fuel : Nat) (ast : AState) (dst : DState), RelAD hf C ast dst →
      aStarLoop g hOpt goal fuel ast =
        toOpt (dijkstraLoop (reweight g hf) goal fuel dst) := by
  intro fuel
  induction fuel with
  | zero =>
    intro ast dst _
    rfl
  | succ n ih =>
    intro ast dst hrel
    obtain ⟨ho, hc, hcf, hcost, hcostH⟩ := hrel
    rw [aStarLoop, dijkstraLoop]
    rcases hos : dst.openSet with _ | ⟨x, xs⟩
    · rw [ho, hos]
      rfl
    · rw [ho, hc, hcf, hos]
      simp only
      have hmins : minElem ast.costH x xs = minElem dst.cost x xs :=
        minElem_congr_add dst.cost ast.costH C hcostH xs x
      rw [hmins]
      by_cases hcg : minElem dst.cost x xs = goal
      · rw [if_pos hcg, if_pos hcg, reweight_length]
        rfl
      · rw [if_neg hcg, if_neg hcg]
        have hrel1 : RelAD hf C
            { ast with openSet := (x :: xs).erase (minElem dst.cost x xs),
                       closed := minElem dst.cost x xs :: dst.closed,
                       cameFrom := dst.cameFrom }
            { dst with openSet := (x :: xs).erase (minElem dst.cost x xs),
                       closed := minElem dst.cost x xs :: dst.closed } :=
          ⟨rfl, rfl, rfl, fun m => hcost m, fun m => hcostH m⟩
        by_cases hcN : minElem dst.cost x xs < g.length
        · have hrow : (reweight g hf).getD (minElem dst.cost x xs) [] =
              (g.getD (minElem dst.cost x xs) []).map
                fun e => (e.1, e.2 + hf e.1 - hf (minElem dst.cost x xs)) :=
            reweight_getD g hf _ hcN
          rw [hrow]
          obtain ⟨ast2, hsome, hrel2⟩ := relaxAll_bisim g hWF hf hOpt htot C
            (minElem dst.cost x xs) hcN (g.getD (minElem dst.cost x xs) [])
            (fun _ h2 => h2) _ _ hrel1
          rw [hsome]
          exact ih ast2 _ hrel2
        · have hrowg : g.getD (minElem dst.cost x xs) [] = [] :=
            getD_of_le g _ (by omega)
          have hrowg2 : (reweight g hf).getD (minElem dst.cost x xs) [] = [] :=
            getD_of_le _ _ (by rw [reweight_length]; omega)
          rw [hrowg, hrowg2]
          rw [show relaxAllA hOpt (minElem dst.cost x xs)
              { ast with openSet := (x :: xs).erase (minElem dst.cost x xs),
                         closed := minElem dst.cost x xs :: dst.closed,
                         cameFrom := dst.cameFrom } [] = some
              { ast with openSet := (x :: xs).erase (minElem dst.cost x xs),
                         closed := minElem dst.cost x xs :: dst.closed,
                         cameFrom := dst.cameFrom } from rfl]
          exact ih _ _ hrel1

/-! ### Claim C2 (amended): consistent heuristics -/

/-- C2 (amended): on a well-formed graph with non-negative costs, if the
heuristic hook succeeds and returns an everywhere-defined CONSISTENT
heuristic (`h u ≤ w + h v` across every edge), then `solveAStar` succeeds
exactly when `solveDijkstra` does, and on success both returned paths are
start-goal paths of equal cumulative edge cost.  (With a merely
admissible heuristic this fails; see the counterexample.) -/
theorem solveAStar_consistent_eq_dijkstra {NP EP : Type _} (s : GraphState NP EP)
    (hWF : WellFormed s.graph) (hNN : NonNegGraph s.graph)
    (hres : HeuristicBehavior) (hf : Nat → ℚ) (hhook : hres.1 = true)
    (htot : ∀ n, n < s.graph.length → hres.2 n = some (hf n))
    (hcons : ∀ u, u < s.graph.length → ∀ e ∈ s.graph.getD u [],
      hf u ≤ e.2 + hf e.1)
    (start goal : Nat) (hs : start < s.graph.length) (hg : goal < s.graph.length)
    (sol0 sol1 : List Nat) :
    (solveAStar s hres start goal sol0).1 = (solveDijkstra s start goal sol1).1 ∧
    ((solveAStar s hres start goal sol0).1 = true →
      ∃ c, GPath s.graph start goal (solveAStar s hres start goal sol0).2 c ∧
        GPath s.graph start goal (solveDijkstra s start goal sol1).2 c) := by
  have hWF2 := reweight_wf s.graph hf hWF
  have hNN2 := reweight_nonneg s.graph hf hcons
  have hs2 : start < (reweight s.graph hf).length := by
    rw [reweight_length]; exact hs
  have hA : solveAStar s hres start goal sol0 =
      (match aStarLoop s.graph hres.2 goal (s.graph.length + 1)
          { openSet := [start], closed := [], cameFrom := fun _ => none,
            cost := fun n => if n = start then some 0 else none,
            costH := fun n => if n = start then some (hf start) else none } with
       | none => (false, sol0)
       | some sol => (true, sol)) := by
    unfold solveAStar
    rw [if_pos ⟨hs, hg⟩]
    simp only [hhook, htot start hs]
    rw [if_pos trivial]
  have hD : solveDijkstra s start goal sol1 =
      dijkstraLoop s.graph goal (s.graph.length + 1)
        { openSet := [start], closed := [], cameFrom := fun _ => none,
          cost := fun n => if n = start then some 0 else none } := by
    unfold solveDijkstra
    rw [if_pos ⟨hs, hg⟩]
  have hrel0 : RelAD hf (hf start)
      { openSet := [start], closed := [], cameFrom := fun _ => none,
        cost := fun n => if n = start then some 0 else none,
        costH := fun n => if n = start then some (hf start) else none }
      { openSet := [start], closed := [], cameFrom := fun _ => none,
        cost := fun n => if n = start then some 0 else none } := by
    refine ⟨rfl, rfl, rfl, ?_, ?_⟩
    all_goals dsimp only
    · intro n
      by_cases hn : n = start
      · rw [hn, if_pos rfl]
        show some 0 = some (0 + (hf start - hf start))
        congr 1
        ring
      · rw [if_neg hn]
        rfl
    · intro n
      by_cases hn : n = start
      · rw [hn, if_pos rfl, if_pos rfl]
        show some (hf start) = some (0 + hf start)
        congr 1
        ring
      · rw [if_neg hn, if_neg hn]
        rfl
  have hbisim := aStarLoop_bisim s.graph hWF hf hres.2 htot (hf start) goal
    (s.graph.length + 1) _ _ hrel0
  by_cases hreach : ∃ p c, GPath s.graph start goal p c
  · obtain ⟨p0, c0, hp0⟩ := hreach
    have htrueD : (dijkstraLoop s.graph goal (s.graph.length + 1)
        { openSet := [start], closed := [], cameFrom := fun _ => none,
          cost := fun n => if n = start then some 0 else none }).1 = true :=
      dijkstraLoop_reaches s.graph hWF hNN start goal p0 c0 hp0 _ _
        (dijkstra_init_inv s.graph start hs) (by simp) (by simp)
    have hp02 : GPath (reweight s.graph hf) start goal p0 (c0 + hf goal - hf start) :=
      gpath_reweight s.graph hf hp0
    have htrueD2 : (dijkstraLoop (reweight s.graph hf) goal (s.graph.length + 1)
        { openSet := [start], closed := [], cameFrom := fun _ => none,
          cost := fun n => if n = start then some 0 else none }).1 = true := by
      refine dijkstraLoop_reaches (reweight s.graph hf) hWF2 hNN2 start goal p0 _
        hp02 _ _ (dijkstra_init_inv (reweight s.graph hf) start hs2) (by simp) ?_
      rw [reweight_length]
      simp
    rcases hresD : dijkstraLoop s.graph goal (s.graph.length + 1)
        { openSet := [start], closed := [], cameFrom := fun _ => none,
          cost := fun n => if n = start then some 0 else none } with ⟨b1, solD⟩
    rcases hresD2 : dijkstraLoop (reweight s.graph hf) goal (s.graph.length + 1)
        { openSet := [start], closed := [], cameFrom := fun _ => none,
          cost := fun n => if n = start then some 0 else none } with ⟨b2, solA⟩
    rw [hresD] at htrueD
    rw [hresD2] at htrueD2
    simp only at htrueD htrueD2
    subst htrueD
    subst htrueD2
    have hAres : solveAStar s hres start goal sol0 = (true, solA) := by
      rw [hA, hbisim, hresD2]
      rfl
    have hDres : solveDijkstra s start goal sol1 = (true, solD) := by
      rw [hD, hresD]
    obtain ⟨cD, hgD, hminD⟩ := dijkstraLoop_sound s.graph hWF hNN start goal _ _
      solD (dijkstra_init_inv s.graph start hs) hresD
    obtain ⟨cA2, hgA2, hminA2⟩ := dijkstraLoop_sound (reweight s.graph hf) hWF2
      hNN2 start goal _ _ solA (dijkstra_init_inv (reweight s.graph hf) start hs2)
      hresD2
    have hgA : GPath s.graph start goal solA (cA2 - hf goal + hf start) :=
      gpath_reweight_rev s.graph hf hgA2
    have h1 : cD ≤ cA2 - hf goal + hf start := hminD _ _ hgA
    have h2 : cA2 ≤ cD + hf goal - hf start :=
      hminA2 _ _ (gpath_reweight s.graph hf hgD)
    have hceq : cA2 - hf goal + hf start = cD := by linarith
    rw [hceq] at hgA
    constructor
    · rw [hAres, hDres]
    · intro _
      refine ⟨cD, ?_, ?_⟩
      · rw [hAres]
        exact hgA
      · rw [hDres]
        exact hgD
  · have hfalseD : ∀ (b : Bool) (solD : List Nat),
        dijkstraLoop s.graph goal (s.graph.length + 1)
          { openSet := [start], closed := [], cameFrom := fun _ => none,
            cost := fun n => if n = start then some 0 else none } = (b, solD) →
        b = false := by
      intro b solD hb
      cases b
      · rfl
      · obtain ⟨c2, hg2, _⟩ := dijkstraLoop_sound s.graph hWF hNN start goal _ _
          solD (dijkstra_init_inv s.graph start hs) hb
        exact absurd ⟨_, _, hg2⟩ hreach
    have hfalseD2 : ∀ (b : Bool) (solA : List Nat),
        dijkstraLoop (reweight s.graph hf) goal (s.graph.length + 1)
          { openSet := [start], closed := [], cameFrom := fun _ => none,
            cost := fun n => if n = start then some 0 else none } = (b, solA) →
        b = false := by
      intro b solA hb
      cases b
      · rfl
      · obtain ⟨c2, hg2, _⟩ := dijkstraLoop_sound (reweight s.graph hf) hWF2 hNN2
          start goal _ _ solA (dijkstra_init_inv (reweight s.graph hf) start hs2) hb
        have := gpath_reweight_rev s.graph hf hg2
        exact absurd ⟨_, _, this⟩ hreach
    rcases hresD : dijkstraLoop s.graph goal (s.graph.length + 1)
        { openSet := [start], closed := [], cameFrom := fun _ => none,
          cost := fun n => if n = start then some 0 else none } with ⟨b1, solD⟩
    rcases hresD2 : dijkstraLoop (reweight s.graph hf) goal (s.graph.length + 1)
        { openSet := [start], closed := [], cameFrom := fun _ => none,
          cost := fun n => if n = start then some 0 else none } with ⟨b2, solA⟩
    have hb1 : b1 = false := hfalseD b1 solD hresD
    have hb2 : b2 = false := hfalseD2 b2 solA hresD2
    subst hb1
    subst hb2
    have hAres : solveAStar s hres start goal sol0 = (false, sol0) := by
      rw [hA, hbisim, hresD2]
      rfl
    have hDres : (solveDijkstra s start goal sol1).1 = false := by
      rw [hD, hresD]
    constructor
    · rw [hAres, hDres]
    · intro hcontra
      rw [hAres] at hcontra
      exact absurd hcontra (by simp)

/-- Witness for the amended C2: the one-node graph with the zero
heuristic (trivially consistent). -/
theorem solveAStar_consistent_eq_dijkstra_witness :
    (solveAStar (⟨[[]], [], [], 0, 0, false⟩ : GraphState Unit Unit)
        (true, fun _ => some 0) 0 0 []).1 =
      (solveDijkstra (⟨[[]], [], [], 0, 0, false⟩ : GraphState Unit Unit) 0 0 []).1 :=
  (solveAStar_consistent_eq_dijkstra
    (⟨[[]], [], [], 0, 0, false⟩ : GraphState Unit Unit) (by decide) (by decide)
    (true, fun _ => some 0) (fun _ => 0) rfl (fun n _ => rfl)
    (by
      intro u hu e he
      simp only [List.length_singleton] at hu
      have h0 : u = 0 := by omega
      subst h0
      simp [List.getD] at he)
    0 0 (by decide) (by decide) [] []).1

theorem cex_admissible_aux :
    ∀ (u v : Nat) (p : List Nat) (c : ℚ),
      GPath [[(1, 1), (2, 3)], [(2, 1)], [(3, 10)], []] u v p c →
      (if u = 1 then (3 : ℚ) else 0) ≤
        c + (if v = 0 then (12 : ℚ) else if v = 1 then 11
             else if v = 2 then 10 else 0) := by
  intro u v p c h
  induction h with
  | single => split_ifs <;> norm_num
  | snoc hp he ih =>
    rename_i u2 v2 pp cc w
    have hu2 : u2 < 4 := by
      have h4 := gpath_edge_src_lt he
      simpa using h4
    interval_cases u2
    · rw [show List.getD ([[(1, 1), (2, 3)], [(2, 1)], [(3, 10)], []] : Graph) 0 [] =
          [(1, 1), (2, 3)] from rfl] at he
      rw [show lookupKey ([(1, 1), (2, 3)] : Row) v2 =
          (if 1 = v2 then some (1 : ℚ) else if 2 = v2 then some 3 else none)
          from rfl] at he
      split_ifs at he with h1 h2
      · obtain rfl : v2 = 1 := h1.symm
        have hw : w = 1 := (Option.some.inj he).symm
        subst hw
        norm_num at ih ⊢
        linarith
      · obtain rfl : v2 = 2 := h2.symm
        have hw : w = 3 := (Option.some.inj he).symm
        subst hw
        norm_num at ih ⊢
        linarith
    · rw [show List.getD ([[(1, 1), (2, 3)], [(2, 1)], [(3, 10)], []] : Graph) 1 [] =
          [(2, 1)] from rfl] at he
      rw [show lookupKey ([(2, 1)] : Row) v2 =
          (if 2 = v2 then some (1 : ℚ) else none) from rfl] at he
      split_ifs at he with h1
      · obtain rfl : v2 = 2 := h1.symm
        have hw : w = 1 := (Option.some.inj he).symm
        subst hw
        norm_num at ih ⊢
        linarith
    · rw [show List.getD ([[(1, 1), (2, 3)], [(2, 1)], [(3, 10)], []] : Graph) 2 [] =
          [(3, 10)] from rfl] at he
      rw [show lookupKey ([(3, 10)] : Row) v2 =
          (if 3 = v2 then some (10 : ℚ) else none) from rfl] at he
      split_ifs at he with h1
      · obtain rfl : v2 = 3 := h1.symm
        have hw : w = 10 := (Option.some.inj he).symm
        subst hw
        norm_num at ih ⊢
        linarith
    · rw [show List.getD ([[(1, 1), (2, 3)], [(2, 1)], [(3, 10)], []] : Graph) 3 [] =
          [] from rfl] at he
      exact absurd he (by simp [lookupKey])

/-- C2 counterexample: on the 4-node graph with edges 0→1 (1), 0→2 (3),
1→2 (1), 2→3 (10), the heuristic (0, 3, 0, 0) is defined on every node
and admissible for goal 3 (it never exceeds the true remaining cost), the
hook succeeds, both searches succeed — but A* (which never reopens closed
nodes) returns the path 0→2→3 of cost 13 while Dijkstra returns 0→1→2→3
of cost 12, refuting "the path it returns has the same total edge cost as
the path returned by solveDijkstra". -/
theorem solveAStar_admissible_cex :
    (∀ n : Nat, ((fun m => some (if m = 1 then (3 : ℚ) else 0)) n).isSome = true) ∧
    (∀ (u : Nat) (p : List Nat) (c : ℚ),
      GPath [[(1, 1), (2, 3)], [(2, 1)], [(3, 10)], []] u 3 p c →
      (if u = 1 then (3 : ℚ) else 0) ≤ c) ∧
    solveAStar (⟨[[(1, 1), (2, 3)], [(2, 1)], [(3, 10)], []], [], [], 0, 3, false⟩ :
        GraphState Unit Unit) (true, fun m => some (if m = 1 then (3 : ℚ) else 0))
      0 3 [] = (true, [0, 2, 3]) ∧
    solveDijkstra (⟨[[(1, 1), (2, 3)], [(2, 1)], [(3, 10)], []], [], [], 0, 3,
        false⟩ : GraphState Unit Unit) 0 3 [] = (true, [0, 1, 2, 3]) ∧
    GPath [[(1, 1), (2, 3)], [(2, 1)], [(3, 10)], []] 0 3 [0, 2, 3] 13 ∧
    GPath [[(1, 1), (2, 3)], [(2, 1)], [(3, 10)], []] 0 3 [0, 1, 2, 3] 12 ∧
    (∀ c : ℚ, GPath [[(1, 1), (2, 3)], [(2, 1)], [(3, 10)], []] 0 3 [0, 2, 3] c →
      c = 13) ∧
    (∀ c : ℚ, GPath [[(1, 1), (2, 3)], [(2, 1)], [(3, 10)], []] 0 3 [0, 1, 2, 3] c →
      c = 12) ∧
    (13 : ℚ) ≠ 12 := by
  have e01 : lookupKey (List.getD ([[(1, 1), (2, 3)], [(2, 1)], [(3, 10)], []] :
      Graph) 0 []) 1 = some 1 := rfl
  have e02 : lookupKey (List.getD ([[(1, 1), (2, 3)], [(2, 1)], [(3, 10)], []] :
      Graph) 0 []) 2 = some 3 := rfl
  have e12 : lookupKey (List.getD ([[(1, 1), (2, 3)], [(2, 1)], [(3, 10)], []] :
      Graph) 1 []) 2 = some 1 := rfl
  have e23 : lookupKey (List.getD ([[(1, 1), (2, 3)], [(2, 1)], [(3, 10)], []] :
      Graph) 2 []) 3 = some 10 := rfl
  have h13 : GPath [[(1, 1), (2, 3)], [(2, 1)], [(3, 10)], []] 0 3 [0, 2, 3] 13 := by
    have h := GPath.snoc (GPath.snoc (GPath.single
      (g := [[(1, 1), (2, 3)], [(2, 1)], [(3, 10)], []]) (s := 0)) e02) e23
    have heq : ((0 : ℚ) + 3) + 10 = 13 := by norm_num
    exact heq ▸ h
  have h12 : GPath [[(1, 1), (2, 3)], [(2, 1)], [(3, 10)], []] 0 3 [0, 1, 2, 3]
      12 := by
    have h := GPath.snoc (GPath.snoc (GPath.snoc (GPath.single
      (g := [[(1, 1), (2, 3)], [(2, 1)], [(3, 10)], []]) (s := 0)) e01) e12) e23
    have heq : (((0 : ℚ) + 1) + 1) + 10 = 12 := by norm_num
    exact heq ▸ h
  refine ⟨fun n => rfl, ?_, by decide, by decide, h13, h12, ?_, ?_, by norm_num⟩
  · intro u p c h
    have haux := cex_admissible_aux u 3 p c h
    norm_num at haux
    exact haux
  · intro c hc
    exact ((gpath_cost_unique h13 hc).2).symm
  · intro c hc
    exact ((gpath_cost_unique h12 hc).2).symm

/-! ### Claim C5 -/

/-- C5 counterexample: on a failing hook, `addStartNode` leaves the start
marker changed (set to the pre-call node count) even though the node was
rolled back; the marker then points at a non-existent index. -/
theorem marker_rollback_cex :
    (addStartNode (⟨[], [], [], sizeTMax, sizeTMax, false⟩ : GraphState Unit Unit)
        () ([], false)).2 = false ∧
    (addStartNode (⟨[], [], [], sizeTMax, sizeTMax, false⟩ : GraphState Unit Unit)
        () ([], false)).1.start_idx = 0 ∧
    (⟨[], [], [], sizeTMax, sizeTMax, false⟩ : GraphState Unit Unit).start_idx =
      sizeTMax ∧
    (0 : Nat) ≠ sizeTMax ∧
    nodeExists (addStartNode (⟨[], [], [], sizeTMax, sizeTMax, false⟩ :
        GraphState Unit Unit) () ([], false)).1 0 = false := by
  refine ⟨rfl, rfl, rfl, by norm_num [sizeTMax], rfl⟩

/-- C5 (amended): when the hook fails, `addStartNode` / `addGoalNode` leave
the respective marker equal to the node count at call time — it is NOT
restored, and it dangles (the rolled-back graph has no such node). -/
theorem addStartGoalNode_marker_failure {NP EP : Type _} (s s2 : GraphState NP EP)
    (np np2 : NP) (l l2 : List ((Nat × Nat) × EP × ℚ)) :
    (addStartNode s np (l, false)).2 = false ∧
    (addStartNode s np (l, false)).1.start_idx = s.graph.length ∧
    (addStartNode s np (l, false)).1.graph.length = s.graph.length ∧
    nodeExists (addStartNode s np (l, false)).1
      (addStartNode s np (l, false)).1.start_idx = false ∧
    (addGoalNode s2 np2 (l2, false)).2 = false ∧
    (addGoalNode s2 np2 (l2, false)).1.goal_idx = s2.graph.length ∧
    (addGoalNode s2 np2 (l2, false)).1.graph.length = s2.graph.length ∧
    nodeExists (addGoalNode s2 np2 (l2, false)).1
      (addGoalNode s2 np2 (l2, false)).1.goal_idx = false := by
  have hstart : ∀ (s : GraphState NP EP) (np : NP) l,
      (addNode s np (l, false)).2 = false ∧
      (addNode s np (l, false)).1.start_idx = s.start_idx ∧
      (addNode s np (l, false)).1.goal_idx = s.goal_idx ∧
      (addNode s np (l, false)).1.graph.length = s.graph.length := by
    intro s np l
    refine ⟨rfl, (runHook_markers l _).1, (runHook_markers l _).2, ?_⟩
    show (runHook _ l).graph.dropLast.length = s.graph.length
    rw [List.length_dropLast, runHook_graph_length]
    simp
  have h1 := hstart { s with start_idx := s.graph.length } np l
  have h2 := hstart { s2 with goal_idx := s2.graph.length } np2 l2
  unfold addStartNode addGoalNode
  refine ⟨h1.1, h1.2.1, h1.2.2.2, ?_, h2.1, h2.2.2.1, h2.2.2.2, ?_⟩
  · simp [nodeExists, h1.2.1, h1.2.2.2]
  · simp [nodeExists, h2.2.2.1, h2.2.2.2]

/-! ### Claim C3 -/

/-- C3 counterexample: a hook that inserts an edge out of a pre-existing
node and then fails leaves that edge (and its edge property) behind —
the adjacency structure and the edge-property table differ from their
pre-call values after the "rollback". -/
theorem addNode_rollback_cex :
    (addNode (⟨[[]], [], [], sizeTMax, sizeTMax, false⟩ : GraphState Unit Unit)
        () ([((0, 1), (), 5)], false)).2 = false ∧
    (addNode (⟨[[]], [], [], sizeTMax, sizeTMax, false⟩ : GraphState Unit Unit)
        () ([((0, 1), (), 5)], false)).1.graph = [[(1, 5)]] ∧
    [[((1 : Nat), (5 : ℚ))]] ≠ ([[]] : Graph) ∧
    (addNode (⟨[[]], [], [], sizeTMax, sizeTMax, false⟩ : GraphState Unit Unit)
        () ([((0, 1), (), 5)], false)).1.edge_properties = [((0, 1), ())] ∧
    [(((0 : Nat), (1 : Nat)), ())] ≠ ([] : List ((Nat × Nat) × Unit)) := by
  refine ⟨rfl, by decide, by decide, by decide, by decide⟩

/-- C3 (amended): when the hook fails, `addNode` restores the node count
and the node-property table (the new row and the new property entry are
removed), but everything the hook wrote survives except the popped row:
the resulting adjacency structure is the hook-modified one minus its
last row, and the edge-property table is exactly the hook-modified one. -/
theorem addNode_rollback_incomplete {NP EP : Type _} (s : GraphState NP EP) (np : NP)
    (l : List ((Nat × Nat) × EP × ℚ))
    (hkeys : ∀ kv ∈ s.node_properties, kv.1 < s.graph.length) :
    (addNode s np (l, false)).2 = false ∧
    (addNode s np (l, false)).1.graph.length = s.graph.length ∧
    (addNode s np (l, false)).1.node_properties = s.node_properties ∧
    (addNode s np (l, false)).1.graph =
      (runHook { s with
          graph := s.graph ++ [[]],
          node_properties := insertIfAbsent s.node_properties s.graph.length np }
        l).graph.dropLast ∧
    (addNode s np (l, false)).1.edge_properties =
      (runHook { s with
          graph := s.graph ++ [[]],
          node_properties := insertIfAbsent s.node_properties s.graph.length np }
        l).edge_properties := by
  have hidx : (s.graph ++ [([] : Row)]).length - 1 = s.graph.length := by simp
  have hnone : lookupKey s.node_properties s.graph.length = none :=
    lookupKey_eq_none fun kv hkv => Nat.ne_of_lt (hkeys kv hkv)
  refine ⟨rfl, ?_, ?_, ?_, ?_⟩
  · show (runHook _ l).graph.dropLast.length = s.graph.length
    rw [List.length_dropLast, runHook_graph_length]
    simp
  · show eraseKey (runHook _ l).node_properties ((s.graph ++ [([] : Row)]).length - 1) =
      s.node_properties
    rw [runHook_node_properties, hidx]
    show eraseKey (insertIfAbsent s.node_properties s.graph.length np) s.graph.length =
      s.node_properties
    rw [insertIfAbsent, hnone]
    simp only [Option.isSome_none, Bool.false_eq_true, if_false]
    exact eraseKey_append_of_not_mem fun kv hkv => Nat.ne_of_lt (hkeys kv hkv)
  · show (runHook { s with
        graph := s.graph ++ [[]],
        node_properties := insertIfAbsent s.node_properties
          ((s.graph ++ [([] : Row)]).length - 1) np } l).graph.dropLast = _
    rw [hidx]
  · show (runHook { s with
        graph := s.graph ++ [[]],
        node_properties := insertIfAbsent s.node_properties
          ((s.graph ++ [([] : Row)]).length - 1) np } l).edge_properties = _
    rw [hidx]

/-- Witness for the amended C3 at a concrete state/hook. -/
theorem addNode_rollback_incomplete_witness :
    (addNode (⟨[[]], [(0, ())], [], sizeTMax, sizeTMax, false⟩ : GraphState Unit Unit)
        () ([((0, 1), (), 5)], false)).2 = false ∧
    (addNode (⟨[[]], [(0, ())], [], sizeTMax, sizeTMax, false⟩ : GraphState Unit Unit)
        () ([((0, 1), (), 5)], false)).1.node_properties = [(0, ())] :=
  ⟨(addNode_rollback_incomplete (⟨[[]], [(0, ())], [], sizeTMax, sizeTMax, false⟩ :
      GraphState Unit Unit) () ([((0, 1), (), 5)]) (by decide)).1,
   (addNode_rollback_incomplete (⟨[[]], [(0, ())], [], sizeTMax, sizeTMax, false⟩ :
      GraphState Unit Unit) () ([((0, 1), (), 5)]) (by decide)).2.2.1⟩

/-! ### Claim C4 -/

/-- C4 counterexample: overwriting an existing edge replaces the stored
cost but keeps the OLD edge property (`std::map::insert` does not
overwrite), contradicting "the stored edge property is replaced". -/
theorem addEdge_overwrite_cex :
    (addEdge (⟨[[(0, 1)]], [], [((0, 0), 7)], 0, 0, false⟩ : GraphState Unit Nat)
        (0, 0) 8 2).2 = true ∧
    lookupKey ((addEdge (⟨[[(0, 1)]], [], [((0, 0), 7)], 0, 0, false⟩ :
        GraphState Unit Nat) (0, 0) 8 2).1.graph.getD 0 []) 0 = some 2 ∧
    (addEdge (⟨[[(0, 1)]], [], [((0, 0), 7)], 0, 0, false⟩ : GraphState Unit Nat)
        (0, 0) 8 2).1.edge_properties = [((0, 0), 7)] ∧
    (7 : Nat) ≠ 8 := by
  refine ⟨by decide, by decide, by decide, by decide⟩

/-- C4 (amended): `addEdge` succeeds iff `cost ≥ 0` and the source node
exists; on failure the state is unchanged; on success the adjacency cost
is stored/overwritten, while the edge property is only inserted when the
pair had none — an existing property is kept, not replaced. -/
theorem addEdge_spec {NP EP : Type _} (s : GraphState NP EP) (e : Nat × Nat)
    (p : EP) (c : ℚ) :
    ((addEdge s e p c).2 = true ↔ 0 ≤ c ∧ e.1 < s.graph.length) ∧
    ((addEdge s e p c).2 = false → (addEdge s e p c).1 = s) ∧
    ((addEdge s e p c).2 = true →
      lookupKey ((addEdge s e p c).1.graph.getD e.1 []) e.2 = some c ∧
      (∀ pOld, lookupKey s.edge_properties e = some pOld →
        lookupKey (addEdge s e p c).1.edge_properties e = some pOld) ∧
      (lookupKey s.edge_properties e = none →
        lookupKey (addEdge s e p c).1.edge_properties e = some p)) := by
  by_cases h : 0 ≤ c ∧ e.1 < s.graph.length
  · have he : addEdge s e p c =
        ({ s with
            graph := s.graph.set e.1 (rowSet (s.graph.getD e.1 []) e.2 c),
            edge_properties := insertIfAbsent s.edge_properties e p }, true) := by
      unfold addEdge
      rw [if_pos h]
    rw [he]
    refine ⟨by simp [h], by simp, fun _ => ⟨?_, fun pOld hold => ?_, fun hnone => ?_⟩⟩
    · simp only
      rw [getD_set_self _ _ _ h.2, lookupKey_rowSet_self]
    · simp only [insertIfAbsent, hold]
      simp [hold]
    · simp only [insertIfAbsent, hnone]
      simp only [Option.isSome_none, Bool.false_eq_true, if_neg, Bool.not_eq_true]
      exact lookupKey_append_of_none hnone p
  · have he : addEdge s e p c = (s, false) := by
      unfold addEdge
      rw [if_neg h]
    rw [he]
    exact ⟨by simpa using h, fun _ => rfl, fun hc => absurd hc (by simp)⟩

/-- Witness for the amended C4 at concrete inputs. -/
theorem addEdge_spec_witness :
    (addEdge (⟨[[(0, 1)]], [], [((0, 0), 7)], 0, 0, false⟩ : GraphState Unit Nat)
        (0, 0) 8 2).2 = true ∧
    lookupKey (addEdge (⟨[[(0, 1)]], [], [((0, 0), 7)], 0, 0, false⟩ :
        GraphState Unit Nat) (0, 0) 8 2).1.edge_properties (0, 0) = some 7 :=
  ⟨(addEdge_spec (⟨[[(0, 1)]], [], [((0, 0), 7)], 0, 0, false⟩ : GraphState Unit Nat)
      (0, 0) 8 2).1.mpr ⟨by norm_num, by norm_num⟩,
   ((addEdge_spec (⟨[[(0, 1)]], [], [((0, 0), 7)], 0, 0, false⟩ : GraphState Unit Nat)
      (0, 0) 8 2).2.2 (by decide)).2.1 7 (by decide)⟩

/-! ### Claim C6 -/

/-- C6: each in-range adjacency-matrix cell holds the edge cost quantized
to milli-units (round of cost·1000) when the edge exists, and the maximum
`int` sentinel when it does not. -/
theorem getAdjacencyMatrix_spec {NP EP : Type _} (s : GraphState NP EP) (i j : Nat)
    (hi : i < s.graph.length) (hj : j < s.graph.length) :
    ((getAdjacencyMatrix s).getD i []).getD j 0 =
      if edgeExists s (i, j) then round ((getEdgeCost s (i, j)).1 * 1000)
      else intMax := by
  unfold getAdjacencyMatrix
  rw [getD_range_map _ _ _ _ hi, getD_range_map _ _ _ _ hj]
  by_cases he : edgeExists s (i, j)
  · have h2 : (getEdgeCost s (i, j)).2 = true := by
      simp [getEdgeCost, he]
    simp [he, h2, doubleToMilliInt]
  · simp [he]

/-- Witness for C6 at a concrete one-node graph with a single self edge of
cost 2 (2000 milli-units). -/
theorem getAdjacencyMatrix_spec_witness :
    ((getAdjacencyMatrix (⟨[[(0, 2)]], [], [], 0, 0, false⟩ :
        GraphState Unit Unit)).getD 0 []).getD 0 0 =
      if edgeExists (⟨[[(0, 2)]], [], [], 0, 0, false⟩ : GraphState Unit Unit) (0, 0)
      then round ((getEdgeCost (⟨[[(0, 2)]], [], [], 0, 0, false⟩ :
        GraphState Unit Unit) (0, 0)).1 * 1000)
      else intMax :=
  getAdjacencyMatrix_spec _ 0 0 (by decide) (by decide)

/-- Witness for C8 on a concrete non-negative graph. -/
theorem nonneg_invariant_witness :
    NonNegGraph ((addEdge (⟨[[(0, 1)]], [], [], 0, 0, false⟩ : GraphState Unit Unit)
      (0, 0) () 2).1.graph) ∧
    addEdge (⟨[[(0, 1)]], [], [], 0, 0, false⟩ : GraphState Unit Unit) (0, 0) () (-1) =
      (⟨[[(0, 1)]], [], [], 0, 0, false⟩, false) :=
  ⟨(nonneg_invariant _ (by decide)).1 (0, 0) () 2,
   (nonneg_invariant _ (by decide)).2.2.2.2.2.2 (0, 0) () (-1) (by norm_num)⟩

end MavCoveragePlanning
